import Mathlib

/-!
# Verification of the 1L-CVRP optimizer

A shallow embedding in Lean 4 of the parts of the `1l-optimization`
repository that the specification's claims are about, together with
theorems settling those claims.

Conventions used throughout:

* Python `float` values that the program treats as exact quantities are
  modelled as rationals (`ℚ`); the value `float("inf")` is modelled by `⊤`
  in `WithTop ℚ` where it matters (network distances, route-cost sentinels).
* Python `int(x)` truncates toward zero; this is `pyInt` below.
* `dict` objects keyed by `Vehicle`/strings are modelled as association
  lists in insertion order (CPython dicts preserve insertion order).
  `Vehicle.__eq__`/`__hash__` compare by `vehicle_id` only, and
  `Shipment.__eq__`/`__hash__` compare by `shipment_id` only, so lookups
  and `list.remove` are modelled with id-based equality.
* `random.choice`/`random.sample`/`random.randint` draws are modelled by
  passing the drawn data as explicit parameters, guarded in the definition
  by exactly the feasibility conditions the library call guarantees
  (membership, index bounds, ...), so the embedded function's committed
  behaviours coincide with the reachable behaviours of the Python code.
-/

namespace CVRP

/-! ## Triangular fuzzy numbers (`src/fuzzy/fuzzy_number.py`)

`TriangularFuzzyNumber` with finite (`ℚ`-modelled) components.  The class
constructor (`__post_init__`) raises only when `left > right`; validity in
the weaker sense used by the class is therefore `left ≤ right`. -/

structure TFN where
  left : ℚ
  peak : ℚ
  right : ℚ
  deriving DecidableEq, Repr

namespace TFN

/-- `TriangularFuzzyNumber.__post_init__` raises exactly when
`left > right`. -/
def raisesOnInit (t : TFN) : Prop := t.right < t.left

instance (t : TFN) : Decidable t.raisesOnInit := by
  unfold raisesOnInit; infer_instance

/-- `TriangularFuzzyNumber.__add__`: componentwise sum. -/
def add (a b : TFN) : TFN :=
  ⟨a.left + b.left, a.peak + b.peak, a.right + b.right⟩

/-- `TriangularFuzzyNumber.__sub__`: the asymmetric difference
`left' = a.left - b.right`, `peak' = a.peak - b.peak`,
`right' = a.right - b.left`. -/
def sub (a b : TFN) : TFN :=
  ⟨a.left - b.right, a.peak - b.peak, a.right - b.left⟩

/-- `defuzzify(method="centroid")`: `(left + peak + right) / 3`. -/
def defuzzify (t : TFN) : ℚ := (t.left + t.peak + t.right) / 3

/-- `TriangularFuzzyNumber.zero()`. -/
def zero : TFN := ⟨0, 0, 0⟩

end TFN

/-- `possibility_degree(a, b)` from `src/fuzzy/fuzzy_number.py`, verbatim:
the two peak-ordering branches are kept as written in the source. -/
def possibility_degree (a b : TFN) : ℚ :=
  if a.right ≤ b.left then 1
  else if b.right ≤ a.left then 0
  else if a.peak ≤ b.peak then
    (if (a.right - a.left) + (b.right - b.left) = 0 then 1 / 2
     else max 0 (min 1 ((b.right - a.left) / ((a.right - a.left) + (b.right - b.left)))))
  else
    (if (a.right - a.left) + (b.right - b.left) = 0 then 1 / 2
     else max 0 (min 1 ((b.right - a.left) / ((a.right - a.left) + (b.right - b.left)))))

/-- The body of the `a.peak <= b.peak` branch of `possibility_degree`,
as a standalone function of the inputs. -/
def possibilityBranchLe (a b : TFN) : ℚ :=
  if (a.right - a.left) + (b.right - b.left) = 0 then 1 / 2
  else max 0 (min 1 ((b.right - a.left) / ((a.right - a.left) + (b.right - b.left))))

/-- The body of the `a.peak > b.peak` branch of `possibility_degree`,
as a standalone function of the inputs. -/
def possibilityBranchGt (a b : TFN) : ℚ :=
  if (a.right - a.left) + (b.right - b.left) = 0 then 1 / 2
  else max 0 (min 1 ((b.right - a.left) / ((a.right - a.left) + (b.right - b.left))))

/-- The formula the specification states for the overlap case of
`possibility_degree`: the ratio clamped to `[0, 1]`. -/
def possibilitySpecFormula (a b : TFN) : ℚ :=
  max 0 (min 1 ((b.right - a.left) / ((a.right - a.left) + (b.right - b.left))))

/-! ## Data model (`src/models/shipment.py`, `src/models/vehicle.py`)

`Shipment.__eq__`/`__hash__` compare by `shipment_id` only, and
`Vehicle.__eq__`/`__hash__` by `vehicle_id` only; all id-sensitive list
operations below (`list.remove`, `!=` filters, dict lookups) therefore use
the id projections.  The mutable state fields `Vehicle.shipments`,
`Vehicle.route` and `Vehicle.costs` are omitted: no code path modelled
here reads or writes them. -/

structure Shipment where
  shipment_id : String
  order_id : String
  total_cbm : ℚ
  weight : ℚ
  origin : String
  delivery_location_id : String
  price : ℚ
  deriving DecidableEq, Repr

structure VehicleDimensions where
  length : ℚ
  width : ℚ
  height : ℚ
  deriving DecidableEq, Repr

/-- `VehicleDimensions.volume`. -/
def VehicleDimensions.volume (d : VehicleDimensions) : ℚ :=
  d.length * d.width * d.height

structure Vehicle where
  vehicle_id : String
  vehicle_type : String
  dimensions : VehicleDimensions
  max_weight : ℚ
  fuel_capacity : ℚ
  fuel_efficiency : ℚ
  current_load_weight : ℚ
  current_load_cbm : ℚ
  deriving DecidableEq, Repr

namespace Vehicle

/-- The `max_cbm` property: `dimensions.volume`. -/
def max_cbm (v : Vehicle) : ℚ := v.dimensions.volume

/-- `Vehicle.get_utilization`: `(weight_utilization, volume_utilization)`
percentages, each `0` when the corresponding capacity is not positive. -/
def get_utilization (v : Vehicle) : ℚ × ℚ :=
  (if 0 < v.max_weight then v.current_load_weight / v.max_weight * 100 else 0,
   if 0 < v.max_cbm then v.current_load_cbm / v.max_cbm * 100 else 0)

end Vehicle

/-! ## Fuzzy numbers with infinite components

`TriangularFuzzyNumber` holds Python floats, and the program uses the
value `float("inf")` as a cost sentinel (`TriangularFuzzyNumber.infinity()`).
Components are modelled in `WithTop ℚ`, whose addition satisfies
`⊤ + x = x + ⊤ = ⊤` exactly as IEEE `inf` behaves against the finite
values reachable in this program (no `-inf` is ever constructed). -/

structure ETFN where
  left : WithTop ℚ
  peak : WithTop ℚ
  right : WithTop ℚ
  deriving DecidableEq

namespace ETFN

/-- `TriangularFuzzyNumber.__add__` on possibly-infinite components. -/
def add (a b : ETFN) : ETFN :=
  ⟨a.left + b.left, a.peak + b.peak, a.right + b.right⟩

/-- `TriangularFuzzyNumber.infinity()`: the `(inf, inf, inf)` sentinel. -/
def infinity : ETFN := ⟨⊤, ⊤, ⊤⟩

/-- `__post_init__` raises exactly when `left > right`. -/
def raisesOnInit (t : ETFN) : Prop := t.right < t.left

instance (t : ETFN) : Decidable t.raisesOnInit := by
  unfold raisesOnInit; infer_instance

/-- A finite fuzzy number, injected into the extended type. -/
def ofTFN (t : TFN) : ETFN := ⟨(t.left : ℚ), (t.peak : ℚ), (t.right : ℚ)⟩

end ETFN

/-! ## Cost calculation (`src/models/cost.py`) -/

/-- Python `int(x)`: truncation toward zero. -/
def pyInt (q : ℚ) : ℤ := if 0 ≤ q then ⌊q⌋ else ⌈q⌉

/-- `CostParameters`, with the three rate dictionaries as partial maps. -/
structure CostParameters where
  fuel_price_per_liter : ℚ
  per_diem_rate : ℚ
  max_driving_hours_per_day : ℚ
  average_speed : ℚ
  fuel_tank_capacity : ℚ
  refuel_time : ℚ
  rest_time_per_day : ℚ
  border_crossing_time : ℚ
  tax_rates : String → Option ℚ
  customs_fees : String × String → Option ℚ
  refuel_costs : String → Option ℚ

/-- The default `CostParameters()` literals. -/
def defaultParams : CostParameters where
  fuel_price_per_liter := 8/10
  per_diem_rate := 18
  max_driving_hours_per_day := 10
  average_speed := 60
  fuel_tank_capacity := 400
  refuel_time := 1/2
  rest_time_per_day := 10
  border_crossing_time := 4
  tax_rates := fun c =>
    if c = "China" ∨ c = "Vietnam" ∨ c = "Laos" ∨ c = "Cambodia" ∨ c = "Malaysia" then some (1/10)
    else if c = "Thailand" then some (7/100)
    else if c = "Myanmar" then some (12/100)
    else if c = "Singapore" then some (8/100)
    else none
  customs_fees := fun p =>
    if p = ("China", "Vietnam") then some 160
    else if p = ("China", "Laos") then some 162
    else if p = ("Laos", "Vietnam") then some 162
    else if p = ("Cambodia", "Vietnam") then some 160
    else if p = ("Cambodia", "Laos") then some 160
    else if p = ("Laos", "Thailand") then some 161
    else if p = ("Laos", "Myanmar") then some 160
    else if p = ("Cambodia", "Thailand") then some 160
    else if p = ("Myanmar", "Thailand") then some 160
    else if p = ("Malaysia", "Thailand") then some 158
    else if p = ("Malaysia", "Singapore") then some 158
    else none
  refuel_costs := fun c =>
    if c = "China" then some 5
    else if c = "Vietnam" ∨ c = "Laos" ∨ c = "Cambodia" ∨ c = "Myanmar" then some 4
    else if c = "Thailand" ∨ c = "Malaysia" then some 3
    else if c = "Singapore" then some 6
    else none

namespace CostCalculator

/-- `calculate_fuel_cost`. -/
def calculate_fuel_cost (p : CostParameters) (distance fe : ℚ) : ℚ :=
  distance * fe * p.fuel_price_per_liter

/-- `get_tax_rate`: dictionary lookup with default `0.10`. -/
def get_tax_rate (p : CostParameters) (country : String) : ℚ :=
  (p.tax_rates country).getD (1/10)

/-- `calculate_tax`. -/
def calculate_tax (p : CostParameters) (goods_value : ℚ) (country : String) : ℚ :=
  goods_value * get_tax_rate p country

/-- `get_customs_fee`: the pair is sorted before lookup, default `160`. -/
def get_customs_fee (p : CostParameters) (c1 c2 : String) : ℚ :=
  (p.customs_fees (if c1 ≤ c2 then (c1, c2) else (c2, c1))).getD 160

/-- `get_driver_salary`: fuzzy daily rate by distance band, times days. -/
def get_driver_salary (distance : ℚ) (days : ℤ) : TFN :=
  let r : TFN :=
    if distance ≤ 500 then ⟨24, 53/2, 29⟩
    else if distance ≤ 1500 then ⟨27, 59/2, 32⟩
    else if distance ≤ 3000 then ⟨29, 31, 33⟩
    else ⟨31, 65/2, 34⟩
  ⟨r.left * days, r.peak * days, r.right * days⟩

/-- `CostCalculator.calculate_route_cost`.

The Python loop returns the infinite sentinel as soon as a leg with
`float("inf")` distance is met; equivalently (as written here) the result
is the sentinel when any leg distance is `⊤`, and otherwise the loop's
accumulators are the leg-wise sums computed below.  `d` is
`network.shortest_path_length`, `country` is `network.get_country`,
`fe` is the vehicle's fuel efficiency (`0.3` when no vehicle is given). -/
def calculate_route_cost (p : CostParameters) (d : String → String → WithTop ℚ)
    (country : String → Option String) (route : List String)
    (vehicle : Option Vehicle) (shipments : List Shipment) : ETFN :=
  if route.length < 2 then ETFN.infinity
  else
    let legs := route.zip route.tail
    if ∃ leg ∈ legs, d leg.1 leg.2 = ⊤ then ETFN.infinity
    else
      let fe : ℚ := match vehicle with
        | some v => v.fuel_efficiency
        | none => 3/10
      let stop_values : String → ℚ := fun dest =>
        ((shipments.filter (fun s => s.delivery_location_id = dest)).map (·.price)).sum
      let dq : String × String → ℚ := fun leg => (d leg.1 leg.2).untop' 0
      let ctry : String → String := fun node => (country node).getD "Unknown"
      let total_distance : ℚ := (legs.map dq).sum
      let total_fuel_cost : ℚ := (legs.map (fun leg => calculate_fuel_cost p (dq leg) fe)).sum
      let fuel_range : ℚ := p.fuel_tank_capacity / fe
      let total_refuel_stops : ℤ := (legs.map (fun leg => max 0 (pyInt (dq leg / fuel_range)))).sum
      let crossing : String × String → Bool := fun leg => ctry leg.1 ≠ ctry leg.2
      let border_crossings : ℕ := legs.countP crossing
      let total_customs_fee : ℚ :=
        (legs.map (fun leg => if crossing leg then get_customs_fee p (ctry leg.1) (ctry leg.2) else 0)).sum
      let total_tax : ℚ :=
        (legs.map (fun leg =>
          if 0 < stop_values leg.2 then calculate_tax p (stop_values leg.2) (ctry leg.2) else 0)).sum
      let driving_hours : ℚ :=
        total_distance / p.average_speed + border_crossings * p.border_crossing_time
      let trip_days : ℤ :=
        max 1 (pyInt ((driving_hours + p.rest_time_per_day - 1) /
          (p.max_driving_hours_per_day + p.rest_time_per_day)) + 1)
      let per_diem : ℚ := p.per_diem_rate * trip_days
      let driver_salary : ℚ := (get_driver_salary total_distance trip_days).defuzzify
      let origin_country : String := (country (route.headD "")).getD "China"
      let refuel_service : ℚ := ((p.refuel_costs origin_country).getD 4) * total_refuel_stops
      let base_cost : ℚ :=
        per_diem + driver_salary + total_fuel_cost + total_customs_fee + total_tax
          + 100 + 200 + refuel_service
      ETFN.ofTFN ⟨base_cost * (95/100), base_cost, base_cost * (105/100)⟩

end CostCalculator

/-! ## Solutions as ordered vehicle → shipment-list maps

A Python `Dict[Vehicle, List[Shipment]]` in insertion order.  Keys are
compared by `vehicle_id` (the class's `__eq__`/`__hash__`). -/

abbrev Solution : Type := List (Vehicle × List Shipment)

namespace Solution

/-- `Vehicle.__eq__`: comparison by `vehicle_id`. -/
def sameVid (a b : Vehicle) : Bool := a.vehicle_id == b.vehicle_id

/-- `Shipment.__eq__`: comparison by `shipment_id`. -/
def sameSid (a b : Shipment) : Bool := a.shipment_id == b.shipment_id

/-- Dict entry lookup `solution[v]` (first — and with unique keys, only —
entry whose key equals `v`). -/
def findEntry (sol : Solution) (v : Vehicle) : Option (Vehicle × List Shipment) :=
  List.find? (fun p => sameVid p.1 v) sol

/-- The shipment list `solution[v]`. -/
def lookupV (sol : Solution) (v : Vehicle) : Option (List Shipment) :=
  (findEntry sol v).map Prod.snd

/-- In-place update of the list bound to key `v`:
`solution[v].<mutation>` for the mutation `f`. -/
def modifyV (sol : Solution) (v : Vehicle) (f : List Shipment → List Shipment) : Solution :=
  List.map (fun p => if sameVid p.1 v then (p.1, f p.2) else p) sol

/-- `list.remove(s)`: drop the first element `== s` (i.e. with `s`'s id). -/
def removeShip (l : List Shipment) (s : Shipment) : List Shipment :=
  l.eraseP (fun t => sameSid t s)

/-- `sum(x.total_cbm for x in l)`. -/
def sumCbm (l : List Shipment) : ℚ := (l.map (·.total_cbm)).sum

/-- `sum(x.weight for x in l)`. -/
def sumWeight (l : List Shipment) : ℚ := (l.map (·.weight)).sum

/-- `sum(x.total_cbm for x in l if x != s)`. -/
def sumCbmWithout (l : List Shipment) (s : Shipment) : ℚ :=
  sumCbm (l.filter (fun t => ¬ sameSid t s))

/-- `sum(x.weight for x in l if x != s)`. -/
def sumWeightWithout (l : List Shipment) (s : Shipment) : ℚ :=
  sumWeight (l.filter (fun t => ¬ sameSid t s))

/-- All shipments of the solution, in dict-then-list iteration order. -/
def allShipments (sol : Solution) : List Shipment :=
  List.flatMap sol Prod.snd

/-- Dict keys have pairwise distinct vehicle ids. -/
def keysNodup (sol : Solution) : Prop :=
  (List.map (fun p => p.1.vehicle_id) sol).Nodup

/-- Every shipment id occurs at most once across the whole solution
("each shipment appears in exactly one vehicle's list"). -/
def idsNodup (sol : Solution) : Prop :=
  ((allShipments sol).map (·.shipment_id)).Nodup

/-- Every vehicle's summed volume and weight are within its hard limits. -/
def withinCapacity (sol : Solution) : Prop :=
  ∀ p ∈ sol, sumCbm p.2 ≤ p.1.max_cbm ∧ sumWeight p.2 ≤ p.1.max_weight

/-- Every vehicle's summed volume is within its hard limit. -/
def withinCbm (sol : Solution) : Prop :=
  ∀ p ∈ sol, sumCbm p.2 ≤ p.1.max_cbm

end Solution

/-! ## Neighborhood operators (`src/optimization/neighborhood.py`)

Each Python operator mutates the dict passed to it and returns that same
dict; the functions below give the value of that dict after the call.
`random.choice`/`random.sample` draws appear as explicit parameters,
guarded by exactly the conditions the draw guarantees (membership, index
ranges, distinct sampled vehicles), so the guarded branches coincide with
the behaviours reachable in Python. -/

open Solution

/-- The two-vehicle commit common to the three swap strategies:
`solution[v1].remove(s1); solution[v2].remove(s2);`
`solution[v1].append(s2); solution[v2].append(s1)`. -/
def swapCommit (sol : Solution) (v1 v2 : Vehicle) (s1 s2 : Shipment) : Solution :=
  modifyV (modifyV sol v1 (fun l => removeShip l s1 ++ [s2]))
    v2 (fun l => removeShip l s2 ++ [s1])

/-- `single_swap`.  The swap commits when the drawn `s1 ∈ solution[v1]`,
`s2 ∈ solution[v2]` pass the hard capacity check on both vehicles
(`v1 ≠ v2` is guaranteed by the caller's `random.sample`). -/
def single_swap (sol : Solution) (v1 v2 : Vehicle) (s1 s2 : Shipment) : Solution :=
  match findEntry sol v1, findEntry sol v2 with
  | some (w1, l1), some (w2, l2) =>
    if l1 = [] ∨ l2 = [] then sol
    else if s1 ∈ l1 ∧ s2 ∈ l2 ∧ w1.vehicle_id ≠ w2.vehicle_id then
      if sumCbmWithout l1 s1 + s2.total_cbm ≤ w1.max_cbm ∧
          sumWeightWithout l1 s1 + s2.weight ≤ w1.max_weight ∧
          sumCbmWithout l2 s2 + s1.total_cbm ≤ w2.max_cbm ∧
          sumWeightWithout l2 s2 + s1.weight ≤ w2.max_weight then
        swapCommit sol w1 w2 s1 s2
      else sol
    else sol
  | _, _ => sol

/-- `destination_swap`: like `single_swap` but the drawn shipments go to
the drawn common destination `dest`. -/
def destination_swap (sol : Solution) (v1 v2 : Vehicle) (dest : String)
    (s1 s2 : Shipment) : Solution :=
  match findEntry sol v1, findEntry sol v2 with
  | some (w1, l1), some (w2, l2) =>
    if l1 = [] ∨ l2 = [] then sol
    else if (dest ∈ l1.map (·.delivery_location_id) ∧ dest ∈ l2.map (·.delivery_location_id)) ∧
        (s1 ∈ l1.filter (fun s => s.delivery_location_id = dest) ∧
         s2 ∈ l2.filter (fun s => s.delivery_location_id = dest)) ∧
        w1.vehicle_id ≠ w2.vehicle_id then
      if sumCbmWithout l1 s1 + s2.total_cbm ≤ w1.max_cbm ∧
          sumWeightWithout l1 s1 + s2.weight ≤ w1.max_weight ∧
          sumCbmWithout l2 s2 + s1.total_cbm ≤ w2.max_cbm ∧
          sumWeightWithout l2 s2 + s1.weight ≤ w2.max_weight then
        swapCommit sol w1 w2 s1 s2
      else sol
    else sol
  | _, _ => sol

/-- First pair `(a, b)` of the nested `for a in l1: for b in l2:` loops
satisfying `q a b`. -/
def findFirstPair (q : Shipment → Shipment → Bool) :
    List Shipment → List Shipment → Option (Shipment × Shipment)
  | [], _ => none
  | a :: as, bs =>
    match bs.find? (q a) with
    | some b => some (a, b)
    | none => findFirstPair q as bs

/-- `proximity_swap`: deterministic double loop over `solution[v1] ×
solution[v2]`; the first pair whose destinations are less than 500 km
apart and which passes the VOLUME-only capacity check is swapped.
(The weight check present in the other strategies is absent in the
source.)  `d` is `network.shortest_path_length`. -/
def proximity_swap (d : String → String → WithTop ℚ) (sol : Solution)
    (v1 v2 : Vehicle) : Solution :=
  match findEntry sol v1, findEntry sol v2 with
  | some (w1, l1), some (w2, l2) =>
    if l1 = [] ∨ l2 = [] ∨ w1.vehicle_id = w2.vehicle_id then sol
    else
      match findFirstPair (fun s1 s2 =>
          decide (d s1.delivery_location_id s2.delivery_location_id < (500 : ℚ) ∧
            sumCbmWithout l1 s1 + s2.total_cbm ≤ w1.max_cbm ∧
            sumCbmWithout l2 s2 + s1.total_cbm ≤ w2.max_cbm)) l1 l2 with
      | some (s1, s2) => swapCommit sol w1 w2 s1 s2
      | none => sol
  | _, _ => sol

/-- `transfer_shipment`: the drawn `toMove` (a `random.sample` of 1–3
shipments of the drawn active `source`) is moved to the drawn distinct
`target` when the target passes the hard capacity check. -/
def transfer_shipment (sol : Solution) (source target : Vehicle)
    (toMove : List Shipment) : Solution :=
  match findEntry sol source, findEntry sol target with
  | some (ws, ls), some (wt, lt) =>
    if ls = [] ∨ ws.vehicle_id = wt.vehicle_id then sol
    else if (∀ s ∈ toMove, s ∈ ls) ∧ toMove.Nodup ∧
        1 ≤ toMove.length ∧ toMove.length ≤ min 3 ls.length then
      if sumCbm lt + sumCbm toMove ≤ wt.max_cbm ∧
          sumWeight lt + sumWeight toMove ≤ wt.max_weight then
        modifyV (modifyV sol ws (fun l => toMove.foldl removeShip l))
          wt (fun l => l ++ toMove)
      else sol
    else sol
  | _, _ => sol

/-- A default shipment for in-range `getD` reads. -/
def dummyShipment : Shipment :=
  ⟨"", "", 0, 0, "", "", 0⟩

/-- `relocate_within_vehicle`: `pop(old_pos)` then `insert(new_pos, ...)`
inside the drawn vehicle's list (vehicle drawn among those with ≥ 2
shipments, positions drawn by `randrange(len)`). -/
def relocate_within_vehicle (sol : Solution) (v : Vehicle)
    (oldPos newPos : ℕ) : Solution :=
  match lookupV sol v with
  | some l =>
    if 2 ≤ l.length ∧ oldPos < l.length ∧ newPos < l.length then
      if oldPos ≠ newPos then
        modifyV sol v (fun l =>
          (l.eraseIdx oldPos).insertIdx newPos (l.getD oldPos dummyShipment))
      else sol
    else sol
  | none => sol

/-- `reverse_subroute`: reverse the slice `[start:stop]` of the drawn
vehicle's list (vehicle drawn among those with ≥ 3 shipments,
`start = randint(0, len-3)`, `stop = randint(start+2, len)`). -/
def reverse_subroute (sol : Solution) (v : Vehicle) (start stop : ℕ) : Solution :=
  match lookupV sol v with
  | some l =>
    if 3 ≤ l.length ∧ start + 3 ≤ l.length ∧ start + 2 ≤ stop ∧ stop ≤ l.length then
      modifyV sol v (fun l =>
        l.take start ++ ((l.drop start).take (stop - start)).reverse ++ l.drop stop)
    else sol
  | none => sol

/-- One `(vehicle, shipment)` pair per shipment occurrence, in dict
iteration order (how `consolidate_destinations` collects them). -/
def solPairs (sol : Solution) : List (Vehicle × Shipment) :=
  List.flatMap sol (fun p => p.2.map (fun s => (p.1, s)))

/-- Append `item` to the group for `dest`, creating the group at the end
on first appearance (insertion-ordered dict of lists). -/
def upsertGroup (acc : List (String × List (Vehicle × Shipment)))
    (dest : String) (item : Vehicle × Shipment) :
    List (String × List (Vehicle × Shipment)) :=
  if acc.any (fun g => g.1 == dest) then
    acc.map (fun g => if g.1 == dest then (g.1, g.2 ++ [item]) else g)
  else acc ++ [(dest, [item])]

/-- `dest_shipments`: shipments grouped by destination, keys in
first-appearance order. -/
def destGroups (sol : Solution) : List (String × List (Vehicle × Shipment)) :=
  (solPairs sol).foldl (fun acc q => upsertGroup acc q.2.delivery_location_id q) []

/-- `list(set(...))` over vehicles, determinised to first-appearance
order.  (CPython's set order is unspecified; it only influences which of
several capacity-remaining ties `max` picks, and no property proved here
depends on that tie-break.) -/
def dedupByVid (vs : List Vehicle) : List Vehicle :=
  vs.foldl (fun acc v => if acc.any (sameVid v) then acc else acc ++ [v]) []

/-- Python `max(xs, key=key)`: first element attaining the maximum. -/
def pyMax (key : Vehicle → ℚ) : List Vehicle → Option Vehicle
  | [] => none
  | x :: xs => some (xs.foldl (fun b a => if key b < key a then a else b) x)

/-- One iteration of `consolidate_destinations`' inner loop: move `q`'s
shipment to `best` when it is on another vehicle and fits (volume only). -/
def consolidateMoveStep (sol : Solution) (best : Vehicle)
    (q : Vehicle × Shipment) : Solution :=
  if sameVid q.1 best then sol
  else
    let current_cbm := match lookupV sol best with
      | some lb => sumCbm lb
      | none => 0
    if current_cbm + q.2.total_cbm ≤ best.max_cbm then
      modifyV (modifyV sol q.1 (fun l => removeShip l q.2)) best (fun l => l ++ [q.2])
    else sol

/-- Processing of one destination group: pick the vehicle with the most
remaining volume among the group's vehicles and pull the group's other
shipments onto it while they fit. -/
def consolidateGroup (sol : Solution) (items : List (Vehicle × Shipment)) : Solution :=
  if items.length ≤ 1 then sol
  else
    let vehicles_for_dest := dedupByVid (items.map Prod.fst)
    if vehicles_for_dest.length ≤ 1 then sol
    else
      match pyMax (fun v => v.max_cbm - (match lookupV sol v with
          | some l => sumCbm l
          | none => 0)) vehicles_for_dest with
      | some best => items.foldl (fun s q => consolidateMoveStep s best q) sol
      | none => sol

/-- `consolidate_destinations` (its `network` argument is unused in the
source and omitted here): groups are collected once from the input
solution, then processed in key order. -/
def consolidate_destinations (sol : Solution) : Solution :=
  (destGroups sol).foldl (fun s g => consolidateGroup s g.2) sol

/-! ### The swap dispatcher and `generate_neighbor`

`swap_between_vehicles` tries the three strategies in shuffled order with
`if result is not solution: return result` — but every strategy returns
the very dict it was passed, so that identity test never fires: all three
strategies run, each on the outcome of the previous one, and the mutated
input is returned. -/

inductive SwapStrategy where
  | singleS
  | destS
  | proxS
  deriving DecidableEq, Repr

/-- The random draws made inside the swap strategies, one slot per
strategy invocation. -/
structure SwapChoices where
  s1 : Shipment
  s2 : Shipment
  dDest : String
  d1 : Shipment
  d2 : Shipment

/-- Run one strategy on the (shared, successively mutated) solution. -/
def applyStrategy (d : String → String → WithTop ℚ) (v1 v2 : Vehicle)
    (c : SwapChoices) (sol : Solution) : SwapStrategy → Solution
  | .singleS => single_swap sol v1 v2 c.s1 c.s2
  | .destS => destination_swap sol v1 v2 c.dDest c.d1 c.d2
  | .proxS => proximity_swap d sol v1 v2

/-- `swap_between_vehicles`: `v1, v2` are the `random.sample` of two
distinct keys, `order` the shuffled strategy order; when either drawn
vehicle is empty it falls back to `transfer_shipment` with that call's
own draws. -/
def swap_between_vehicles (d : String → String → WithTop ℚ) (sol : Solution)
    (v1 v2 : Vehicle) (order : List SwapStrategy) (c : SwapChoices)
    (tSource tTarget : Vehicle) (toMove : List Shipment) : Solution :=
  if sol.length < 2 then sol
  else if (v1 ∈ sol.map Prod.fst ∧ v2 ∈ sol.map Prod.fst ∧ v1.vehicle_id ≠ v2.vehicle_id) ∧
      order.Perm [SwapStrategy.singleS, SwapStrategy.destS, SwapStrategy.proxS] then
    match lookupV sol v1, lookupV sol v2 with
    | some l1, some l2 =>
      if l1 = [] ∨ l2 = [] then transfer_shipment sol tSource tTarget toMove
      else order.foldl (applyStrategy d v1 v2 c) sol
    | _, _ => sol
  else sol

/-- The move type drawn by `generate_neighbor`'s weighted
`random.choices`, with each move's own inner draws. -/
inductive NeighborMove where
  | swapM (v1 v2 : Vehicle) (order : List SwapStrategy) (c : SwapChoices)
      (tSource tTarget : Vehicle) (toMove : List Shipment)
  | transferM (source target : Vehicle) (toMove : List Shipment)
  | relocateM (v : Vehicle) (oldPos newPos : ℕ)
  | reverseM (v : Vehicle) (start stop : ℕ)

/-- Apply the drawn move to a solution value. -/
def applyMove (d : String → String → WithTop ℚ) (sol : Solution) :
    NeighborMove → Solution
  | .swapM v1 v2 order c tS tT toMove =>
      swap_between_vehicles d sol v1 v2 order c tS tT toMove
  | .transferM source target toMove => transfer_shipment sol source target toMove
  | .relocateM v oldPos newPos => relocate_within_vehicle sol v oldPos newPos
  | .reverseM v start stop => reverse_subroute sol v start stop

/-! ### Call-level semantics

A `...Call` function returns the pair
(state of the solution dict the caller passed in, after the call;
value of the dict object the call returned).
Every operator mutates its argument in place and returns that same
object, so for them the two components coincide; `generate_neighbor`
works on a `copy.deepcopy` of its argument, so its caller's dict keeps
its original state. -/

def swap_between_vehiclesCall (d : String → String → WithTop ℚ) (sol : Solution)
    (v1 v2 : Vehicle) (order : List SwapStrategy) (c : SwapChoices)
    (tSource tTarget : Vehicle) (toMove : List Shipment) : Solution × Solution :=
  let r := swap_between_vehicles d sol v1 v2 order c tSource tTarget toMove
  (r, r)

def transfer_shipmentCall (sol : Solution) (source target : Vehicle)
    (toMove : List Shipment) : Solution × Solution :=
  let r := transfer_shipment sol source target toMove
  (r, r)

def relocate_within_vehicleCall (sol : Solution) (v : Vehicle)
    (oldPos newPos : ℕ) : Solution × Solution :=
  let r := relocate_within_vehicle sol v oldPos newPos
  (r, r)

def reverse_subrouteCall (sol : Solution) (v : Vehicle) (start stop : ℕ) :
    Solution × Solution :=
  let r := reverse_subroute sol v start stop
  (r, r)

def consolidate_destinationsCall (sol : Solution) : Solution × Solution :=
  let r := consolidate_destinations sol
  (r, r)

def generate_neighborCall (d : String → String → WithTop ℚ) (m : NeighborMove)
    (sol : Solution) : Solution × Solution :=
  (sol, applyMove d sol m)

/-! ## Solution validation (`src/utils/validators.py`) -/

/-- One entry of `result.cost_comparisons` (the constant `"note"` string
is omitted). -/
structure CompEntry where
  historical_cost : ℚ
  current_cost : ℚ
  difference : ℚ
  improvement_percentage : ℚ
  deriving DecidableEq, Repr

namespace SolutionValidator

/-- `solution_costs[v]` lookup (dict keyed by `Vehicle`, id equality). -/
def lookupCost (costs : List (Vehicle × TFN)) (v : Vehicle) : Option TFN :=
  (costs.find? (fun p => sameVid p.1 v)).map Prod.snd

/-- `historical_costs.get(vehicle_id)`. -/
def lookupHist (hist : List (String × ℚ)) (vid : String) : Option ℚ :=
  (hist.find? (fun p => p.1 == vid)).map Prod.snd

/-- `SolutionValidator._compare_costs`: returns the entries of
`result.cost_comparisons` in insertion order (per-vehicle entries, then
the `"TOTAL"` entry) and the improvement notes appended to
`result.improvements`, each note modelled by its
`(improvement_percentage, dollars_saved)` payload. -/
def compare_costs (historical : List (String × ℚ)) (solution : Solution)
    (costs : List (Vehicle × TFN)) : List (String × CompEntry) × List (ℚ × ℚ) :=
  let total_historical := (historical.map Prod.snd).sum
  let active : Vehicle → Bool := fun v =>
    match lookupV solution v with
    | some l => !l.isEmpty
    | none => false
  let total_current := ((costs.filter (fun p => active p.1)).map (fun p => p.2.defuzzify)).sum
  let perVehicle := solution.filterMap (fun p =>
    if p.2 = [] then none
    else match lookupCost costs p.1 with
      | none => none
      | some c =>
        let hist := (lookupHist historical p.1.vehicle_id).getD 0
        let cur := c.defuzzify
        let diff := hist - cur
        let pct := if 0 < hist then diff / hist * 100 else 0
        some (p.1.vehicle_id, ⟨hist, cur, diff, pct⟩))
  let total_diff := total_historical - total_current
  let total_pct := if 0 < total_historical then total_diff / total_historical * 100 else 0
  (perVehicle ++ [("TOTAL", ⟨total_historical, total_current, total_diff, total_pct⟩)],
   if 0 < total_diff then [(total_pct, total_diff)] else [])

end SolutionValidator

/-! ## Route optimisation (`src/optimization/route_optimizer.py`)

`d` is always `network.shortest_path_length` (`⊤` = `float("inf")` for
unreachable pairs); the backing graph is an undirected `networkx.Graph`,
so `d` is symmetric on it. -/

/-- Sum of `d` over consecutive stops of a path. -/
def pathDist (d : String → String → WithTop ℚ) : List String → WithTop ℚ
  | [] => 0
  | [_] => 0
  | x :: y :: rest => d x y + pathDist d (y :: rest)

/-- `calculate_route_distance`: distance from `origin` through `route`. -/
def calculate_route_distance (d : String → String → WithTop ℚ)
    (origin : String) (route : List String) : WithTop ℚ :=
  if route.isEmpty then 0 else pathDist d (origin :: route)

/-- `itertools.permutations(l)`: all permutations, in lexicographic order
of the selected source indices (so the identity order comes first). -/
def itertoolsPerms : List String → List (List String)
  | [] => [[]]
  | x :: xs =>
    List.flatMap (List.range (x :: xs).length).attach
      (fun i => (itertoolsPerms ((x :: xs).eraseIdx i.1)).map
        (fun p => (x :: xs).getD i.1 "" :: p))
termination_by l => l.length
decreasing_by
  have hi : i.1 < (x :: xs).length := List.mem_range.mp i.2
  rw [List.length_eraseIdx_of_lt hi]
  exact Nat.sub_lt (by simp) Nat.one_pos

/-- The `best_route` fold of `optimize_route_exact`'s exact branch:
strict improvements only, so the first permutation attaining the minimum
wins. -/
def selectBest (cost : List String → WithTop ℚ) (init : List String)
    (perms : List (List String)) : List String × WithTop ℚ :=
  perms.foldl (fun acc p => if cost p < acc.2 then (p, cost p) else acc) (init, ⊤)

/-! `two_opt_improvement`'s `while improved` loop has no syntactic bound;
it is embedded with explicit fuel, and `two_opt_fuel` below is proved
sufficient (theorem for claim C9): from that fuel on, the result no
longer changes. -/

/-- Reversal of the Python slice `r[i:j]` in place:
`r[i:j] = reversed(r[i:j])`. -/
def revSegment (r : List String) (i j : ℕ) : List String :=
  r.take i ++ ((r.drop i).take (j - i)).reverse ++ r.drop j

theorem revSegment_length {r : List String} {i j : ℕ} (hij : i < j)
    (hj : j ≤ r.length) : (revSegment r i j).length = r.length := by
  simp only [revSegment, List.length_append, List.length_take, List.length_reverse,
    List.length_drop]
  omega

/-- The 2-opt edge-replacement test at positions `i < j`:
cost of the two new edges strictly below cost of the two removed edges. -/
def twoOptCond (d : String → String → WithTop ℚ) (origin : String)
    (r : List String) (i j : ℕ) : Prop :=
  let prevI := if i = 0 then origin else r.getD (i - 1) ""
  d prevI (r.getD (j - 1) "") + d (r.getD i "") (r.getD j "") <
    d prevI (r.getD i "") + d (r.getD (j - 1) "") (r.getD j "")

instance (d : String → String → WithTop ℚ) (origin : String)
    (r : List String) (i j : ℕ) : Decidable (twoOptCond d origin r i j) := by
  unfold twoOptCond; infer_instance

/-- The nested `for i ... for j ...` scan of one `while` iteration,
started at `i`, `j = i + 2 + k`: applies every improving reversal as it
is found (continuing the scan on the mutated route, as the source does)
and records in the flag whether any fired. -/
def twoOptPassAux (d : String → String → WithTop ℚ) (origin : String)
    (r : List String) (i k : ℕ) (imp : Bool) : List String × Bool :=
  if h1 : i + 1 < r.length then
    if h2 : i + 2 + k < r.length then
      if twoOptCond d origin r i (i + 2 + k) then
        twoOptPassAux d origin (revSegment r i (i + 2 + k)) i (k + 1) true
      else twoOptPassAux d origin r i (k + 1) imp
    else twoOptPassAux d origin r (i + 1) 0 imp
  else (r, imp)
termination_by (r.length - i, r.length - (i + 2 + k))
decreasing_by
  · have hlen : (revSegment r i (i + 2 + k)).length = r.length :=
      revSegment_length (by omega) (by omega)
    rw [hlen]
    exact Prod.Lex.right _ (by omega)
  · exact Prod.Lex.right _ (by omega)
  · exact Prod.Lex.left _ _ (by omega)

/-- One full `for i / for j` pass. -/
def twoOptPass (d : String → String → WithTop ℚ) (origin : String)
    (r : List String) : List String × Bool :=
  twoOptPassAux d origin r 0 0 false

/-- The `while improved` loop, with fuel. -/
def twoOptLoop (d : String → String → WithTop ℚ) (origin : String) :
    ℕ → List String → List String
  | 0, r => r
  | fuel + 1, r =>
    let pr := twoOptPass d origin r
    if pr.2 then twoOptLoop d origin fuel pr.1 else pr.1

/-- Fuel sufficient for `twoOptLoop` to reach its fixpoint (proved in the
theorem for claim C9): one unit per permutation of the route, plus one. -/
def two_opt_fuel (r : List String) : ℕ := (List.permutations r).length + 1

/-- `two_opt_improvement`. -/
def two_opt_improvement (d : String → String → WithTop ℚ) (origin : String)
    (route : List String) : List String :=
  if route.length < 3 then route
  else twoOptLoop d origin (two_opt_fuel route) route

/-- The first-strict-improvement scan of `nearest_neighbor`'s inner
`for dest in unvisited` loop (`None` when nothing is strictly below
`inf`). -/
def nnPick (d : String → String → WithTop ℚ) (current : String)
    (unvisited : List String) : Option String :=
  (unvisited.foldl (fun acc dest =>
    if d current dest < acc.2 then (some dest, d current dest) else acc)
    ((none : Option String), (⊤ : WithTop ℚ))).1

/-- The `while unvisited` loop of `nearest_neighbor` (the unvisited set
determinised to a list in original order; fuel = number of destinations
bounds the iterations, one removal per step). -/
def nnGo (d : String → String → WithTop ℚ) :
    ℕ → String → List String → List String → List String
  | 0, _, unvisited, acc => acc ++ unvisited
  | fuel + 1, current, unvisited, acc =>
    if unvisited.isEmpty then acc
    else match nnPick d current unvisited with
      | none => acc ++ unvisited
      | some best => nnGo d fuel best (unvisited.erase best) (acc ++ [best])

/-- `nearest_neighbor`. -/
def nearest_neighbor (d : String → String → WithTop ℚ) (origin : String)
    (destinations : List String) : List String :=
  if destinations.isEmpty then []
  else nnGo d destinations.length origin destinations []

/-- `optimize_route`: nearest neighbour, then 2-opt. -/
def optimize_route (d : String → String → WithTop ℚ) (origin : String)
    (destinations : List String) : List String :=
  two_opt_improvement d origin (nearest_neighbor d origin destinations)

/-- `optimize_route_exact` with the default `max_exact_size = 5`:
brute force over all permutations for at most 5 destinations, heuristic
beyond. -/
def optimize_route_exact (d : String → String → WithTop ℚ) (origin : String)
    (destinations : List String) : List String :=
  if destinations.isEmpty then []
  else if destinations.length ≤ 5 then
    (selectBest (calculate_route_distance d origin) destinations
      (itertoolsPerms destinations)).1
  else optimize_route d origin destinations

/-! ## Claim C6: the subtraction round-trip -/

/-- C6 (counterexample): with `a = (0,0,0)` and `b = (0,1,2)`,
`subtract(add(a,b), b) = (-2, 0, 2) ≠ a`: the claimed identity
`subtract(add(a,b), b) = a` fails for the asymmetric `__sub__`. -/
theorem sub_add_roundtrip_fails :
    TFN.sub (TFN.add ⟨0, 0, 0⟩ ⟨0, 1, 2⟩) ⟨0, 1, 2⟩ ≠ (⟨0, 0, 0⟩ : TFN) := by
  intro h
  have h1 := congrArg TFN.left h
  norm_num [TFN.sub, TFN.add] at h1

/-- C6 (amended): for all triangular fuzzy numbers `a`, `b`,
`subtract(add(a,b), b)` keeps `a`'s peak but widens the support
symmetrically by `b`'s spread `b.right - b.left`; it equals `a` exactly
when `b` is crisp (`b.left = b.right`). -/
theorem sub_add_roundtrip_widens (a b : TFN) :
    TFN.sub (TFN.add a b) b =
      ⟨a.left - (b.right - b.left), a.peak, a.right + (b.right - b.left)⟩ ∧
    (TFN.sub (TFN.add a b) b = a ↔ b.left = b.right) := by
  obtain ⟨al, ap, ar⟩ := a
  obtain ⟨bl, bp, br⟩ := b
  simp only [TFN.sub, TFN.add, TFN.mk.injEq]
  refine ⟨⟨by ring, by ring, by ring⟩, ?_, ?_⟩
  · rintro ⟨h1, h2, h3⟩
    linarith
  · intro h
    subst h
    exact ⟨by ring, by ring, by ring⟩

/-! ## Claim C7: `possibility_degree` -/

/-- C7: for valid fuzzy numbers (`left ≤ right`, which `__post_init__`
guarantees), `possibility_degree(a, b)` is `1` when `a.right ≤ b.left`,
else `0` when `b.right ≤ a.left`, else the clamped overlap ratio (the
`denominator == 0` guard of the source is unreachable there); moreover
the two peak-ordering branches are the same function of the inputs, so
the result never depends on the peak ordering. -/
theorem possibility_degree_spec (a b : TFN)
    (ha : a.left ≤ a.right) (hb : b.left ≤ b.right) :
    possibility_degree a b =
      (if a.right ≤ b.left then 1
       else if b.right ≤ a.left then 0
       else possibilitySpecFormula a b) ∧
    possibilityBranchLe = possibilityBranchGt := by
  refine ⟨?_, rfl⟩
  unfold possibility_degree possibilitySpecFormula
  by_cases h1 : a.right ≤ b.left
  · simp [h1]
  · by_cases h2 : b.right ≤ a.left
    · simp [h1, h2]
    · have hden : (a.right - a.left) + (b.right - b.left) ≠ 0 := by
        intro h0
        have hA : a.right - a.left = 0 := by linarith
        have hB : b.right - b.left = 0 := by linarith
        exact h2 (by linarith)
      by_cases h3 : a.peak ≤ b.peak
      · simp [h1, h2, h3, hden]
      · simp [h1, h2, h3, hden]

/-- C7 (witness): the theorem applied to the concrete valid inputs
`a = (0,1,2)`, `b = (1,2,3)`. -/
theorem possibility_degree_spec_witness :
    possibility_degree ⟨0, 1, 2⟩ ⟨1, 2, 3⟩ =
      (if (⟨0, 1, 2⟩ : TFN).right ≤ (⟨1, 2, 3⟩ : TFN).left then 1
       else if (⟨1, 2, 3⟩ : TFN).right ≤ (⟨0, 1, 2⟩ : TFN).left then 0
       else possibilitySpecFormula ⟨0, 1, 2⟩ ⟨1, 2, 3⟩) :=
  (possibility_degree_spec ⟨0, 1, 2⟩ ⟨1, 2, 3⟩ (by decide) (by decide)).1

/-! ## Claim C5: the validator's TOTAL comparison -/

/-- A vehicle for the validator scenario. -/
def vEx1 : Vehicle := ⟨"V1", "truck", ⟨4, 5, 2⟩, 1000, 400, 3/10, 10, 4⟩

/-- A second vehicle for the validator scenario. -/
def vEx2 : Vehicle := ⟨"V2", "truck", ⟨4, 5, 2⟩, 1000, 400, 3/10, 10, 4⟩

/-- A shipment carried by `vEx1`. -/
def sEx1 : Shipment := ⟨"S1", "O1", 1, 10, "NNG", "HAN", 100⟩

/-- A shipment carried by `vEx2`. -/
def sEx2 : Shipment := ⟨"S2", "O2", 1, 10, "NNG", "VTE", 100⟩

/-- The scenario solution: both vehicles active. -/
def solEx : Solution := [(vEx1, [sEx1]), (vEx2, [sEx2])]

/-- Historical costs `{V1: 100, V2: 50}`. -/
def histEx : List (String × ℚ) := [("V1", 100), ("V2", 50)]

/-- C5: with historical `{V1:100, V2:50}` and current (defuzzified)
costs `{V1:80, V2:60}`, both vehicles active, the `"TOTAL"` comparison
entry is `(historical 150, current 140, difference 10, improvement
20/3 ≈ 6.67%)` and the improvement note is appended; with current costs
`{V1:90, V2:70}` the difference is `-10` and no note is appended. -/
theorem compare_costs_total_scenario :
    (SolutionValidator.compare_costs histEx solEx
        [(vEx1, ⟨80, 80, 80⟩), (vEx2, ⟨60, 60, 60⟩)]).1.find?
        (fun e => e.1 == "TOTAL") = some ("TOTAL", ⟨150, 140, 10, 20/3⟩) ∧
    (SolutionValidator.compare_costs histEx solEx
        [(vEx1, ⟨80, 80, 80⟩), (vEx2, ⟨60, 60, 60⟩)]).2 = [(20/3, 10)] ∧
    (SolutionValidator.compare_costs histEx solEx
        [(vEx1, ⟨90, 90, 90⟩), (vEx2, ⟨70, 70, 70⟩)]).1.find?
        (fun e => e.1 == "TOTAL") = some ("TOTAL", ⟨150, 160, -10, -20/3⟩) ∧
    (SolutionValidator.compare_costs histEx solEx
        [(vEx1, ⟨90, 90, 90⟩), (vEx2, ⟨70, 70, 70⟩)]).2 = [] := by
  norm_num [SolutionValidator.compare_costs, SolutionValidator.lookupCost,
    SolutionValidator.lookupHist, histEx, solEx, vEx1, vEx2, sEx1, sEx2,
    TFN.defuzzify, lookupV, findEntry, sameVid, List.find?, List.filter,
    List.filterMap,
    show (("V1" : String) == "V2") = false from by decide,
    show (("V2" : String) == "V1") = false from by decide,
    show (("V1" : String) == "TOTAL") = false from by decide,
    show (("V2" : String) == "TOTAL") = false from by decide]

/-! ## Claim C3: the infinite-cost sentinel -/

/-- C3: `calculate_route_cost` returns the `(inf, inf, inf)` sentinel for
routes of fewer than two stops and whenever any consecutive leg has
infinite shortest-path distance; and adding any fuzzy number to the
sentinel yields the sentinel again without tripping the constructor's
`left > right` check. -/
theorem calculate_route_cost_sentinel (p : CostParameters)
    (d : String → String → WithTop ℚ) (country : String → Option String)
    (route : List String) (vehicle : Option Vehicle) (shipments : List Shipment) :
    (route.length < 2 →
      CostCalculator.calculate_route_cost p d country route vehicle shipments =
        ETFN.infinity) ∧
    (∀ leg ∈ route.zip route.tail, d leg.1 leg.2 = ⊤ →
      CostCalculator.calculate_route_cost p d country route vehicle shipments =
        ETFN.infinity) ∧
    (∀ b : ETFN, ETFN.add ETFN.infinity b = ETFN.infinity ∧
      ¬ (ETFN.add ETFN.infinity b).raisesOnInit) := by
  refine ⟨fun hshort => ?_, fun leg hmem hd => ?_, fun b => ⟨?_, ?_⟩⟩
  · unfold CostCalculator.calculate_route_cost
    rw [if_pos hshort]
  · unfold CostCalculator.calculate_route_cost
    by_cases hshort : route.length < 2
    · rw [if_pos hshort]
    · rw [if_neg hshort, if_pos ⟨leg, hmem, hd⟩]
  · simp [ETFN.add, ETFN.infinity]
  · simp [ETFN.add, ETFN.infinity, ETFN.raisesOnInit]

/-- An all-infinite distance oracle for the sentinel witness. -/
def dTopEx : String → String → WithTop ℚ := fun _ _ => ⊤

/-- C3 (witness): the theorem applied to a one-stop route, to a two-stop
route whose leg is unreachable, and to the fuzzy number `(1,2,3)`. -/
theorem calculate_route_cost_sentinel_witness :
    CostCalculator.calculate_route_cost defaultParams dTopEx (fun _ => none)
        ["NNG"] none [] = ETFN.infinity ∧
    CostCalculator.calculate_route_cost defaultParams dTopEx (fun _ => none)
        ["NNG", "HAN"] none [] = ETFN.infinity ∧
    (ETFN.add ETFN.infinity (ETFN.ofTFN ⟨1, 2, 3⟩) = ETFN.infinity ∧
      ¬ (ETFN.add ETFN.infinity (ETFN.ofTFN ⟨1, 2, 3⟩)).raisesOnInit) :=
  ⟨(calculate_route_cost_sentinel defaultParams dTopEx (fun _ => none)
      ["NNG"] none []).1 (by decide),
   (calculate_route_cost_sentinel defaultParams dTopEx (fun _ => none)
      ["NNG", "HAN"] none []).2.1 ("NNG", "HAN") (by decide) rfl,
   (calculate_route_cost_sentinel defaultParams dTopEx (fun _ => none)
      ["NNG", "HAN"] none []).2.2 (ETFN.ofTFN ⟨1, 2, 3⟩)⟩

/-! ## Dictionary lemmas for the operator proofs -/

section DictLemmas

/-- Per-list shipment ids are pairwise distinct. -/
def sidNodup (l : List Shipment) : Prop := (l.map (·.shipment_id)).Nodup

theorem sameVid_refl (v : Vehicle) : sameVid v v = true := by
  simp [sameVid]

theorem sameVid_eq_true_iff {a b : Vehicle} :
    sameVid a b = true ↔ a.vehicle_id = b.vehicle_id := by
  simp [sameVid]

theorem sameSid_eq_true_iff {a b : Shipment} :
    sameSid a b = true ↔ a.shipment_id = b.shipment_id := by
  simp [sameSid]

theorem modifyV_map_fst (sol : Solution) (v : Vehicle)
    (f : List Shipment → List Shipment) :
    (modifyV sol v f).map Prod.fst = sol.map Prod.fst := by
  unfold modifyV
  rw [List.map_map]
  apply List.map_congr_left
  intro p _
  by_cases h : sameVid p.1 v <;> simp [h]

theorem keysNodup_modifyV {sol : Solution} {v : Vehicle}
    {f : List Shipment → List Shipment} (hk : keysNodup sol) :
    keysNodup (modifyV sol v f) := by
  unfold keysNodup at *
  have h : (modifyV sol v f).map (fun p => p.1.vehicle_id) =
      sol.map (fun p => p.1.vehicle_id) := by
    have := congrArg (List.map (fun w : Vehicle => w.vehicle_id)) (modifyV_map_fst sol v f)
    simpa [List.map_map, Function.comp] using this
  rw [h]
  exact hk

theorem entry_unique {sol : Solution} (hk : keysNodup sol)
    {v w : Vehicle} {l lw : List Shipment} (hv : (v, l) ∈ sol)
    (hw : (w, lw) ∈ sol) (hid : w.vehicle_id = v.vehicle_id) :
    (w, lw) = (v, l) :=
  List.inj_on_of_nodup_map hk hw hv hid

/-- Decomposition of one in-place list update: with unique keys the
entry for `v` is unique, everything else is untouched. -/
theorem modifyV_decomp {sol : Solution} (hk : keysNodup sol)
    {v : Vehicle} {l : List Shipment} (hv : (v, l) ∈ sol)
    (f : List Shipment → List Shipment) :
    ∃ pre post, sol = pre ++ (v, l) :: post ∧
      modifyV sol v f = pre ++ (v, f l) :: post ∧
      (∀ q ∈ pre, sameVid q.1 v = false) ∧
      (∀ q ∈ post, sameVid q.1 v = false) := by
  induction sol with
  | nil => cases hv
  | cons p rest ih =>
    rcases List.mem_cons.mp hv with hv | hv
    · subst hv
      refine ⟨[], rest, rfl, ?_, by simp, ?_⟩
      · unfold modifyV
        simp only [List.map_cons, sameVid_refl, if_pos]
        congr 1
        conv_rhs => rw [← List.map_id rest]
        apply List.map_congr_left
        intro q hq
        have hqv : sameVid q.1 v = false := by
          rw [Bool.eq_false_iff]
          intro hqt
          have hid := sameVid_eq_true_iff.mp hqt
          have : q.1.vehicle_id ∈ rest.map (fun p => p.1.vehicle_id) :=
            List.mem_map_of_mem _ hq
          rw [hid] at this
          exact (List.nodup_cons.mp hk).1 this
        simp [hqv]
      · intro q hq
        rw [Bool.eq_false_iff]
        intro hqt
        have hid := sameVid_eq_true_iff.mp hqt
        have : q.1.vehicle_id ∈ rest.map (fun p => p.1.vehicle_id) :=
          List.mem_map_of_mem _ hq
        rw [hid] at this
        exact (List.nodup_cons.mp hk).1 this
    · have hk' : keysNodup rest := (List.nodup_cons.mp hk).2
      obtain ⟨pre, post, hdec, hmod, hpre, hpost⟩ := ih hk' hv
      have hpv : sameVid p.1 v = false := by
        rw [Bool.eq_false_iff]
        intro hpt
        have hid := sameVid_eq_true_iff.mp hpt
        have : v.vehicle_id ∈ rest.map (fun p => p.1.vehicle_id) := by
          have : (v, l) ∈ rest := hv
          exact List.mem_map_of_mem _ this
        rw [← hid] at this
        exact (List.nodup_cons.mp hk).1 this
      refine ⟨p :: pre, post, by rw [hdec]; simp, ?_, ?_, hpost⟩
      · unfold modifyV at *
        simp only [List.map_cons, hpv, Bool.false_eq_true, if_neg, hmod]
        simp
      · intro q hq
        rcases List.mem_cons.mp hq with hq | hq
        · subst hq; exact hpv
        · exact hpre q hq

theorem mem_of_mem_modifyV {sol : Solution} {v : Vehicle}
    {f : List Shipment → List Shipment} {p : Vehicle × List Shipment}
    (hp : p ∈ modifyV sol v f) :
    (p ∈ sol ∧ sameVid p.1 v = false) ∨
      (∃ l₀, (p.1, l₀) ∈ sol ∧ sameVid p.1 v = true ∧ p.2 = f l₀) := by
  unfold modifyV at hp
  obtain ⟨q, hq, hpq⟩ := List.mem_map.mp hp
  by_cases h : sameVid q.1 v
  · right
    have h1 : p.1 = q.1 := by rw [← hpq]; simp [h]
    refine ⟨q.2, ?_, ?_, ?_⟩
    · rw [h1]
      simpa using hq
    · rw [h1]
      exact h
    · rw [← hpq]
      simp [h]
  · left
    have h1 : p = q := by rw [← hpq]; simp [h]
    subst h1
    exact ⟨hq, by simpa using h⟩

end DictLemmas

/-! ## Shipment-list lemmas -/

section ShipLemmas

theorem allShipments_append (a b : Solution) :
    allShipments (a ++ b) = allShipments a ++ allShipments b := by
  simp [allShipments]

theorem allShipments_cons (p : Vehicle × List Shipment) (rest : Solution) :
    allShipments (p :: rest) = p.2 ++ allShipments rest := by
  simp [allShipments]

theorem mem_allShipments {sol : Solution} {v : Vehicle} {l : List Shipment}
    (hv : (v, l) ∈ sol) {s : Shipment} (hs : s ∈ l) : s ∈ allShipments sol := by
  unfold allShipments
  exact List.mem_flatMap.mpr ⟨(v, l), hv, hs⟩

theorem sidNodup_of_entry {sol : Solution} (hids : idsNodup sol)
    {v : Vehicle} {l : List Shipment} (hv : (v, l) ∈ sol) : sidNodup l := by
  obtain ⟨a, b, rfl⟩ := List.append_of_mem hv
  unfold idsNodup at hids
  rw [allShipments_append, allShipments_cons] at hids
  exact hids.sublist (((List.sublist_append_left l (allShipments b)).trans
    (List.sublist_append_right _ _)).map _)

theorem removeShip_decomp {l : List Shipment} {s : Shipment}
    (hn : sidNodup l) (hs : s ∈ l) :
    ∃ l₁ l₂, l = l₁ ++ s :: l₂ ∧ removeShip l s = l₁ ++ l₂ ∧
      (∀ t ∈ l₁, t.shipment_id ≠ s.shipment_id) ∧
      (∀ t ∈ l₂, t.shipment_id ≠ s.shipment_id) := by
  obtain ⟨a, l₁, l₂, hl₁, hpa, hdec, hrem⟩ :=
    List.exists_of_eraseP (p := fun t => sameSid t s) hs (by simp [sameSid])
  have ha : a = s := by
    have hamem : a ∈ l := by rw [hdec]; simp
    exact List.inj_on_of_nodup_map hn hamem hs (sameSid_eq_true_iff.mp hpa)
  subst ha
  refine ⟨l₁, l₂, hdec, hrem, ?_, ?_⟩
  · intro t ht
    have := hl₁ t ht
    simpa [sameSid] using this
  · intro t ht
    subst hdec
    unfold sidNodup at hn
    simp only [List.map_append, List.map_cons] at hn
    have := (List.nodup_append.mp hn).2
    have h2 := (List.nodup_cons.mp this.1).1
    intro hid
    exact h2 (hid ▸ List.mem_map_of_mem _ ht)

theorem filter_ne_eq_removeShip {l : List Shipment} {s : Shipment}
    (hn : sidNodup l) (hs : s ∈ l) :
    l.filter (fun t => ¬ sameSid t s) = removeShip l s := by
  obtain ⟨l₁, l₂, hdec, hrem, h₁, h₂⟩ := removeShip_decomp hn hs
  rw [hrem, hdec, List.filter_append, List.filter_cons]
  have hss : sameSid s s = true := by simp [sameSid]
  simp only [hss]
  rw [List.filter_eq_self.mpr, List.filter_eq_self.mpr]
  · simp
  · intro t ht
    simpa [sameSid] using h₂ t ht
  · intro t ht
    simpa [sameSid] using h₁ t ht

theorem sum_map_removeShip {l : List Shipment} {s : Shipment} (f : Shipment → ℚ)
    (hn : sidNodup l) (hs : s ∈ l) :
    ((removeShip l s).map f).sum = (l.map f).sum - f s := by
  obtain ⟨l₁, l₂, hdec, hrem, _, _⟩ := removeShip_decomp hn hs
  rw [hrem, hdec]
  simp
  ring

theorem sumCbm_removeShip {l : List Shipment} {s : Shipment}
    (hn : sidNodup l) (hs : s ∈ l) :
    sumCbm (removeShip l s) = sumCbm l - s.total_cbm :=
  sum_map_removeShip _ hn hs

theorem sumWeight_removeShip {l : List Shipment} {s : Shipment}
    (hn : sidNodup l) (hs : s ∈ l) :
    sumWeight (removeShip l s) = sumWeight l - s.weight :=
  sum_map_removeShip _ hn hs

theorem sumCbmWithout_eq {l : List Shipment} {s : Shipment}
    (hn : sidNodup l) (hs : s ∈ l) :
    sumCbmWithout l s = sumCbm l - s.total_cbm := by
  unfold sumCbmWithout
  rw [filter_ne_eq_removeShip hn hs]
  exact sumCbm_removeShip hn hs

theorem sumWeightWithout_eq {l : List Shipment} {s : Shipment}
    (hn : sidNodup l) (hs : s ∈ l) :
    sumWeightWithout l s = sumWeight l - s.weight := by
  unfold sumWeightWithout
  rw [filter_ne_eq_removeShip hn hs]
  exact sumWeight_removeShip hn hs

theorem sumCbm_append (a b : List Shipment) :
    sumCbm (a ++ b) = sumCbm a + sumCbm b := by
  simp [sumCbm]

theorem sumWeight_append (a b : List Shipment) :
    sumWeight (a ++ b) = sumWeight a + sumWeight b := by
  simp [sumWeight]

end ShipLemmas

/-! ## The swap commit: entry characterisation -/

theorem findEntry_mem {sol : Solution} {v w : Vehicle} {l : List Shipment}
    (h : findEntry sol v = some (w, l)) :
    (w, l) ∈ sol ∧ w.vehicle_id = v.vehicle_id := by
  unfold findEntry at h
  refine ⟨List.mem_of_find?_eq_some h, ?_⟩
  have := List.find?_some h
  exact sameVid_eq_true_iff.mp this

theorem mem_modifyV_two {sol : Solution} {v1 v2 : Vehicle}
    {l1 l2 : List Shipment} {f1 f2 : List Shipment → List Shipment}
    (hk : keysNodup sol) (h1 : (v1, l1) ∈ sol) (h2 : (v2, l2) ∈ sol)
    (hne : v1.vehicle_id ≠ v2.vehicle_id)
    {p : Vehicle × List Shipment} (hp : p ∈ modifyV (modifyV sol v1 f1) v2 f2) :
    p = (v1, f1 l1) ∨ p = (v2, f2 l2) ∨ p ∈ sol := by
  obtain ⟨pv, pl⟩ := p
  rcases mem_of_mem_modifyV hp with ⟨hpA, hpv2⟩ | ⟨l₀, hl₀, hpv2, hp2⟩
  · rcases mem_of_mem_modifyV hpA with ⟨hpsol, _⟩ | ⟨l₀, hl₀, hpv1, hp2⟩
    · right; right; exact hpsol
    · left
      have hq := entry_unique hk h1 hl₀ (sameVid_eq_true_iff.mp hpv1)
      injection hq with hqa hqb
      subst hqa
      subst hqb
      simp only at hp2
      rw [hp2]
  · rcases mem_of_mem_modifyV hl₀ with ⟨hpsol, _⟩ | ⟨l₁', hl₁', hpv1, hp2'⟩
    · right; left
      have hq := entry_unique hk h2 hpsol (sameVid_eq_true_iff.mp hpv2)
      injection hq with hqa hqb
      subst hqa
      subst hqb
      simp only at hp2
      rw [hp2]
    · exact absurd ((sameVid_eq_true_iff.mp hpv1).symm.trans
        (sameVid_eq_true_iff.mp hpv2)) hne

theorem mem_swapCommit {sol : Solution} {v1 v2 : Vehicle}
    {l1 l2 : List Shipment} {s1 s2 : Shipment}
    (hk : keysNodup sol) (h1 : (v1, l1) ∈ sol) (h2 : (v2, l2) ∈ sol)
    (hne : v1.vehicle_id ≠ v2.vehicle_id)
    {p : Vehicle × List Shipment} (hp : p ∈ swapCommit sol v1 v2 s1 s2) :
    p = (v1, removeShip l1 s1 ++ [s2]) ∨
    p = (v2, removeShip l2 s2 ++ [s1]) ∨ p ∈ sol :=
  mem_modifyV_two hk h1 h2 hne hp

theorem sidNodup_removeShip {l : List Shipment} {s : Shipment}
    (hn : sidNodup l) : sidNodup (removeShip l s) :=
  hn.sublist ((List.eraseP_sublist l).map _)

theorem mem_removeShip_of_ne {l : List Shipment} {s t : Shipment}
    (hn : sidNodup l) (hs : s ∈ l) (ht : t ∈ l) (hne : t ≠ s) :
    t ∈ removeShip l s := by
  obtain ⟨l₁, l₂, hdec, hrem, _, _⟩ := removeShip_decomp hn hs
  rw [hrem]
  rw [hdec] at ht
  rcases List.mem_append.mp ht with ht | ht
  · exact List.mem_append.mpr (Or.inl ht)
  · rcases List.mem_cons.mp ht with ht | ht
    · exact absurd ht hne
    · exact List.mem_append.mpr (Or.inr ht)

theorem sum_map_foldl_removeShip (f : Shipment → ℚ) :
    ∀ (toMove : List Shipment) {l : List Shipment}, sidNodup l →
      (∀ s ∈ toMove, s ∈ l) → toMove.Nodup →
      ((toMove.foldl removeShip l).map f).sum =
        (l.map f).sum - ((toMove.map f).sum)
  | [], l, _, _, _ => by simp
  | s :: rest, l, hn, hmem, hnd => by
    have hs : s ∈ l := hmem s (List.mem_cons_self ..)
    have hn' : sidNodup (removeShip l s) := sidNodup_removeShip hn
    have hmem' : ∀ t ∈ rest, t ∈ removeShip l s := by
      intro t ht
      exact mem_removeShip_of_ne hn hs (hmem t (List.mem_cons_of_mem _ ht))
        (fun hts => (List.nodup_cons.mp hnd).1 (hts ▸ ht))
    have hnd' : rest.Nodup := (List.nodup_cons.mp hnd).2
    have ih := sum_map_foldl_removeShip f rest hn' hmem' hnd'
    simp only [List.foldl_cons, List.map_cons, List.sum_cons]
    rw [ih, sum_map_removeShip f hn hs]
    ring

/-! ## Capacity preservation of the committing moves -/

theorem withinCapacity_swapCommit {sol : Solution} {v1 v2 : Vehicle}
    {l1 l2 : List Shipment} {s1 s2 : Shipment}
    (hk : keysNodup sol) (hids : idsNodup sol)
    (h1 : (v1, l1) ∈ sol) (h2 : (v2, l2) ∈ sol)
    (hne : v1.vehicle_id ≠ v2.vehicle_id)
    (hs1 : s1 ∈ l1) (hs2 : s2 ∈ l2) (hpre : withinCapacity sol)
    (hc1 : sumCbmWithout l1 s1 + s2.total_cbm ≤ v1.max_cbm)
    (hc2 : sumWeightWithout l1 s1 + s2.weight ≤ v1.max_weight)
    (hc3 : sumCbmWithout l2 s2 + s1.total_cbm ≤ v2.max_cbm)
    (hc4 : sumWeightWithout l2 s2 + s1.weight ≤ v2.max_weight) :
    withinCapacity (swapCommit sol v1 v2 s1 s2) := by
  have hn1 := sidNodup_of_entry hids h1
  have hn2 := sidNodup_of_entry hids h2
  rw [sumCbmWithout_eq hn1 hs1] at hc1
  rw [sumWeightWithout_eq hn1 hs1] at hc2
  rw [sumCbmWithout_eq hn2 hs2] at hc3
  rw [sumWeightWithout_eq hn2 hs2] at hc4
  intro p hp
  rcases mem_swapCommit hk h1 h2 hne hp with heq | heq | hmem
  · subst heq
    constructor
    · rw [sumCbm_append, sumCbm_removeShip hn1 hs1]
      have hone : sumCbm [s2] = s2.total_cbm := by simp [sumCbm]
      rw [hone]
      linarith
    · rw [sumWeight_append, sumWeight_removeShip hn1 hs1]
      have hone : sumWeight [s1] = s1.weight := by simp [sumWeight]
      have hone2 : sumWeight [s2] = s2.weight := by simp [sumWeight]
      rw [hone2]
      linarith
  · subst heq
    constructor
    · rw [sumCbm_append, sumCbm_removeShip hn2 hs2]
      have hone : sumCbm [s1] = s1.total_cbm := by simp [sumCbm]
      rw [hone]
      linarith
    · rw [sumWeight_append, sumWeight_removeShip hn2 hs2]
      have hone : sumWeight [s1] = s1.weight := by simp [sumWeight]
      rw [hone]
      linarith
  · exact hpre p hmem

theorem single_swap_capacity (sol : Solution) (v1 v2 : Vehicle)
    (s1 s2 : Shipment) (hk : keysNodup sol) (hids : idsNodup sol)
    (hpre : withinCapacity sol) :
    withinCapacity (single_swap sol v1 v2 s1 s2) := by
  rcases hF1 : findEntry sol v1 with _ | ⟨w1, l1⟩ <;>
    rcases hF2 : findEntry sol v2 with _ | ⟨w2, l2⟩ <;>
    simp only [single_swap, hF1, hF2]
  any_goals exact hpre
  split_ifs with hemp hch hcap
  · exact hpre
  · obtain ⟨hm1, _⟩ := findEntry_mem hF1
    obtain ⟨hm2, _⟩ := findEntry_mem hF2
    exact withinCapacity_swapCommit hk hids hm1 hm2 hch.2.2 hch.1 hch.2.1 hpre
      hcap.1 hcap.2.1 hcap.2.2.1 hcap.2.2.2
  · exact hpre
  · exact hpre

theorem destination_swap_capacity (sol : Solution) (v1 v2 : Vehicle)
    (dest : String) (s1 s2 : Shipment) (hk : keysNodup sol)
    (hids : idsNodup sol) (hpre : withinCapacity sol) :
    withinCapacity (destination_swap sol v1 v2 dest s1 s2) := by
  rcases hF1 : findEntry sol v1 with _ | ⟨w1, l1⟩ <;>
    rcases hF2 : findEntry sol v2 with _ | ⟨w2, l2⟩ <;>
    simp only [destination_swap, hF1, hF2]
  any_goals exact hpre
  split_ifs with hemp hch hcap
  · exact hpre
  · obtain ⟨hm1, _⟩ := findEntry_mem hF1
    obtain ⟨hm2, _⟩ := findEntry_mem hF2
    exact withinCapacity_swapCommit hk hids hm1 hm2 hch.2.2
      (List.mem_filter.mp hch.2.1.1).1 (List.mem_filter.mp hch.2.1.2).1 hpre
      hcap.1 hcap.2.1 hcap.2.2.1 hcap.2.2.2
  · exact hpre
  · exact hpre

theorem findFirstPair_some {q : Shipment → Shipment → Bool}
    {l1 l2 : List Shipment} {s1 s2 : Shipment}
    (h : findFirstPair q l1 l2 = some (s1, s2)) :
    s1 ∈ l1 ∧ s2 ∈ l2 ∧ q s1 s2 = true := by
  induction l1 with
  | nil => simp [findFirstPair] at h
  | cons a as ih =>
    unfold findFirstPair at h
    cases hfind : l2.find? (q a) with
    | some b =>
      rw [hfind] at h
      injection h with h'
      injection h' with ha hb
      subst ha
      subst hb
      exact ⟨List.mem_cons_self .., List.mem_of_find?_eq_some hfind,
        List.find?_some hfind⟩
    | none =>
      rw [hfind] at h
      obtain ⟨hs1, hs2, hq⟩ := ih h
      exact ⟨List.mem_cons_of_mem _ hs1, hs2, hq⟩

theorem proximity_swap_cbm (d : String → String → WithTop ℚ) (sol : Solution)
    (v1 v2 : Vehicle) (hk : keysNodup sol) (hids : idsNodup sol)
    (hpre : withinCapacity sol) :
    withinCbm (proximity_swap d sol v1 v2) := by
  have hpre' : withinCbm sol := fun p hp => (hpre p hp).1
  rcases hF1 : findEntry sol v1 with _ | ⟨w1, l1⟩ <;>
    rcases hF2 : findEntry sol v2 with _ | ⟨w2, l2⟩ <;>
    simp only [proximity_swap, hF1, hF2]
  any_goals exact hpre'
  split_ifs with hemp
  · exact hpre'
  rcases hfp : findFirstPair (fun s1 s2 =>
      decide (d s1.delivery_location_id s2.delivery_location_id < (500 : ℚ) ∧
        sumCbmWithout l1 s1 + s2.total_cbm ≤ w1.max_cbm ∧
        sumCbmWithout l2 s2 + s1.total_cbm ≤ w2.max_cbm)) l1 l2 with
    _ | ⟨s1, s2⟩
  · exact hpre'
  · obtain ⟨hs1, hs2, hq⟩ := findFirstPair_some hfp
    obtain ⟨hd500, hcap1, hcap2⟩ := of_decide_eq_true hq
    obtain ⟨hm1, _⟩ := findEntry_mem hF1
    obtain ⟨hm2, _⟩ := findEntry_mem hF2
    have hne : w1.vehicle_id ≠ w2.vehicle_id := by tauto
    have hn1 := sidNodup_of_entry hids hm1
    have hn2 := sidNodup_of_entry hids hm2
    rw [sumCbmWithout_eq hn1 hs1] at hcap1
    rw [sumCbmWithout_eq hn2 hs2] at hcap2
    intro p hp
    rcases mem_swapCommit hk hm1 hm2 hne hp with heq | heq | hmem
    · subst heq
      rw [sumCbm_append, sumCbm_removeShip hn1 hs1]
      have hone : sumCbm [s2] = s2.total_cbm := by simp [sumCbm]
      rw [hone]
      linarith
    · subst heq
      rw [sumCbm_append, sumCbm_removeShip hn2 hs2]
      have hone : sumCbm [s1] = s1.total_cbm := by simp [sumCbm]
      rw [hone]
      linarith
    · exact hpre' p hmem

theorem transfer_shipment_capacity (sol : Solution) (source target : Vehicle)
    (toMove : List Shipment) (hk : keysNodup sol) (hids : idsNodup sol)
    (hpos : ∀ s ∈ allShipments sol, 0 ≤ s.total_cbm ∧ 0 ≤ s.weight)
    (hpre : withinCapacity sol) :
    withinCapacity (transfer_shipment sol source target toMove) := by
  rcases hF1 : findEntry sol source with _ | ⟨ws, ls⟩ <;>
    rcases hF2 : findEntry sol target with _ | ⟨wt, lt⟩ <;>
    simp only [transfer_shipment, hF1, hF2]
  any_goals exact hpre
  split_ifs with hemp hch hcap
  · exact hpre
  · obtain ⟨hms, _⟩ := findEntry_mem hF1
    obtain ⟨hmt, _⟩ := findEntry_mem hF2
    have hne : ws.vehicle_id ≠ wt.vehicle_id := by tauto
    have hns := sidNodup_of_entry hids hms
    intro p hp
    rcases mem_modifyV_two hk hms hmt hne hp with heq | heq | hmem
    · subst heq
      have hsum := sum_map_foldl_removeShip (·.total_cbm) toMove hns hch.1 hch.2.1
      have hsumw := sum_map_foldl_removeShip (·.weight) toMove hns hch.1 hch.2.1
      have hnonneg : 0 ≤ sumCbm toMove ∧ 0 ≤ sumWeight toMove := by
        constructor
        · apply List.sum_nonneg
          intro x hx
          obtain ⟨s, hs, rfl⟩ := List.mem_map.mp hx
          exact (hpos s (mem_allShipments hms (hch.1 s hs))).1
        · apply List.sum_nonneg
          intro x hx
          obtain ⟨s, hs, rfl⟩ := List.mem_map.mp hx
          exact (hpos s (mem_allShipments hms (hch.1 s hs))).2
      have hpres := hpre _ hms
      constructor
      · show sumCbm _ ≤ _
        unfold sumCbm at *
        rw [hsum]
        have := hnonneg.1
        unfold sumCbm at this
        linarith [hpres.1]
      · show sumWeight _ ≤ _
        unfold sumWeight at *
        rw [hsumw]
        have := hnonneg.2
        unfold sumWeight at this
        linarith [hpres.2]
    · subst heq
      constructor
      · rw [sumCbm_append]
        exact hcap.1
      · rw [sumWeight_append]
        exact hcap.2
    · exact hpre p hmem
  · exact hpre
  · exact hpre

/-! ## Claim C1: the hard capacity invariant -/

/-- Counterexample vehicle with small weight limit
(`max_cbm = 1000`, `max_weight = 50`). -/
def vCx1 : Vehicle := ⟨"V1", "t", ⟨10, 10, 10⟩, 50, 400, 3/10, 0, 0⟩

/-- Counterexample vehicle (`max_cbm = 1000`, `max_weight = 100`). -/
def vCx2 : Vehicle := ⟨"V2", "t", ⟨10, 10, 10⟩, 100, 400, 3/10, 0, 0⟩

/-- A light shipment (1 cbm, 10 kg). -/
def sCx1 : Shipment := ⟨"S1", "O1", 1, 10, "NNG", "HAN", 0⟩

/-- A heavy shipment (1 cbm, 100 kg). -/
def sCx2 : Shipment := ⟨"S2", "O2", 1, 100, "NNG", "SGN", 0⟩

/-- The counterexample solution, within all hard limits. -/
def solCx : Solution := [(vCx1, [sCx1]), (vCx2, [sCx2])]

/-- Everything is 0 km apart. -/
def dCx : String → String → WithTop ℚ := fun _ _ => ((0 : ℚ) : WithTop ℚ)

theorem findEntry_solCx_1 : findEntry solCx vCx1 = some (vCx1, [sCx1]) := by
  simp [findEntry, solCx, List.find?, sameVid]

theorem findEntry_solCx_2 : findEntry solCx vCx2 = some (vCx2, [sCx2]) := by
  simp [findEntry, solCx, List.find?, sameVid, vCx1, vCx2,
    show (("V1" : String) == "V2") = false from by decide]

theorem proximity_swap_solCx_eval :
    proximity_swap dCx solCx vCx1 vCx2 = [(vCx1, [sCx2]), (vCx2, [sCx1])] := by
  have hb : ∀ s1 s2 : Shipment, s1 = sCx1 → s2 = sCx2 →
      decide (dCx s1.delivery_location_id s2.delivery_location_id < (500 : ℚ) ∧
        sumCbmWithout [sCx1] s1 + s2.total_cbm ≤ vCx1.max_cbm ∧
        sumCbmWithout [sCx2] s2 + s1.total_cbm ≤ vCx2.max_cbm) = true := by
    rintro _ _ rfl rfl
    rw [decide_eq_true_eq]
    refine ⟨?_, ?_, ?_⟩
    · show ((0 : ℚ) : WithTop ℚ) < ((500 : ℚ) : WithTop ℚ)
      rw [WithTop.coe_lt_coe]
      norm_num
    · norm_num [sumCbmWithout, sumCbm, sCx1, sCx2, vCx1, Vehicle.max_cbm,
        VehicleDimensions.volume, sameSid, List.filter]
    · norm_num [sumCbmWithout, sumCbm, sCx1, sCx2, vCx2, Vehicle.max_cbm,
        VehicleDimensions.volume, sameSid, List.filter]
  unfold proximity_swap
  rw [findEntry_solCx_1, findEntry_solCx_2]
  have hguard : ¬ ([sCx1] = [] ∨ [sCx2] = [] ∨ vCx1.vehicle_id = vCx2.vehicle_id) := by
    simp [vCx1, vCx2]
  simp only [if_neg hguard]
  have hfp : findFirstPair (fun s1 s2 =>
      decide (dCx s1.delivery_location_id s2.delivery_location_id < (500 : ℚ) ∧
        sumCbmWithout [sCx1] s1 + s2.total_cbm ≤ vCx1.max_cbm ∧
        sumCbmWithout [sCx2] s2 + s1.total_cbm ≤ vCx2.max_cbm)) [sCx1] [sCx2] =
      some (sCx1, sCx2) := by
    unfold findFirstPair
    rw [show List.find? _ [sCx2] = some sCx2 from ?_]
    rw [List.find?_cons, hb sCx1 sCx2 rfl rfl]
  rw [hfp]
  simp [swapCommit, modifyV, solCx, sameVid, vCx1, vCx2, removeShip,
    List.eraseP_cons, sameSid, sCx1, sCx2,
    show (("V1" : String) == "V2") = false from by decide,
    show (("V2" : String) == "V1") = false from by decide]

/-- C1 (counterexample): a solution within every hard volume and weight
limit on which `proximity_swap` commits a swap (destinations 0 km apart,
volume checks pass) that pushes `V1` to 100 kg against its 50 kg
`max_weight`: the all-moves capacity claim is false because
`proximity_swap` never checks weight. -/
theorem proximity_swap_weight_violation :
    withinCapacity solCx ∧
    ¬ withinCapacity (proximity_swap dCx solCx vCx1 vCx2) := by
  constructor
  · intro p hp
    simp only [solCx, List.mem_cons, List.not_mem_nil, or_false] at hp
    rcases hp with rfl | rfl
    · constructor
      · norm_num [sumCbm, sCx1, vCx1, Vehicle.max_cbm, VehicleDimensions.volume]
      · norm_num [sumWeight, sCx1, vCx1]
    · constructor
      · norm_num [sumCbm, sCx2, vCx2, Vehicle.max_cbm, VehicleDimensions.volume]
      · norm_num [sumWeight, sCx2, vCx2]
  · intro h
    rw [proximity_swap_solCx_eval] at h
    have := (h (vCx1, [sCx2]) (by simp)).2
    norm_num [sumWeight, sCx2, vCx1] at this

/-- C1 (amended): after any committed `single_swap`, `destination_swap`
or `transfer_shipment` every vehicle's summed volume AND summed weight
stay within the hard `max_cbm`/`max_weight` limits (no tolerance), for
any solution with unique vehicle keys, globally unique shipment ids and
nonnegative shipment sizes; `proximity_swap` preserves only the volume
limit — its weight check is absent from the source (see the
counterexample). -/
theorem neighborhood_capacity_invariant :
    (∀ sol v1 v2 s1 s2, keysNodup sol → idsNodup sol → withinCapacity sol →
      withinCapacity (single_swap sol v1 v2 s1 s2)) ∧
    (∀ sol v1 v2 dest s1 s2, keysNodup sol → idsNodup sol → withinCapacity sol →
      withinCapacity (destination_swap sol v1 v2 dest s1 s2)) ∧
    (∀ sol source target toMove, keysNodup sol → idsNodup sol →
      (∀ s ∈ allShipments sol, 0 ≤ s.total_cbm ∧ 0 ≤ s.weight) →
      withinCapacity sol →
      withinCapacity (transfer_shipment sol source target toMove)) ∧
    (∀ d sol v1 v2, keysNodup sol → idsNodup sol → withinCapacity sol →
      withinCbm (proximity_swap d sol v1 v2)) :=
  ⟨fun sol v1 v2 s1 s2 hk hids hpre =>
      single_swap_capacity sol v1 v2 s1 s2 hk hids hpre,
   fun sol v1 v2 dest s1 s2 hk hids hpre =>
      destination_swap_capacity sol v1 v2 dest s1 s2 hk hids hpre,
   fun sol source target toMove hk hids hpos hpre =>
      transfer_shipment_capacity sol source target toMove hk hids hpos hpre,
   fun d sol v1 v2 hk hids hpre =>
      proximity_swap_cbm d sol v1 v2 hk hids hpre⟩

/-- C1 (witness): the amended theorem's `single_swap` part applied to the
concrete two-vehicle solution `solCx`. -/
theorem neighborhood_capacity_invariant_witness :
    withinCapacity (single_swap solCx vCx1 vCx2 sCx1 sCx2) :=
  neighborhood_capacity_invariant.1 solCx vCx1 vCx2 sCx1 sCx2
    (by unfold keysNodup; decide) (by unfold idsNodup; decide)
    (by
      intro p hp
      simp only [solCx, List.mem_cons, List.not_mem_nil, or_false] at hp
      rcases hp with rfl | rfl
      · exact ⟨by norm_num [sumCbm, sCx1, vCx1, Vehicle.max_cbm,
            VehicleDimensions.volume],
          by norm_num [sumWeight, sCx1, vCx1]⟩
      · exact ⟨by norm_num [sumCbm, sCx2, vCx2, Vehicle.max_cbm,
            VehicleDimensions.volume],
          by norm_num [sumWeight, sCx2, vCx2]⟩)

/-! ## Claim C2: operators mutate the caller's solution -/

/-- A solution with an empty second vehicle, for the transfer move. -/
def solC2 : Solution := [(vCx1, [sCx1]), (vCx2, ([] : List Shipment))]

theorem findEntry_solC2_1 : findEntry solC2 vCx1 = some (vCx1, [sCx1]) := by
  simp [findEntry, solC2, List.find?, sameVid]

theorem findEntry_solC2_2 : findEntry solC2 vCx2 = some (vCx2, []) := by
  simp [findEntry, solC2, List.find?, sameVid, vCx1, vCx2,
    show (("V1" : String) == "V2") = false from by decide]

theorem transfer_solC2_eval :
    transfer_shipment solC2 vCx1 vCx2 [sCx1] = [(vCx1, []), (vCx2, [sCx1])] := by
  unfold transfer_shipment
  rw [findEntry_solC2_1, findEntry_solC2_2]
  have hg1 : ¬ ([sCx1] = [] ∨ vCx1.vehicle_id = vCx2.vehicle_id) := by
    simp [vCx1, vCx2]
  have hg2 : (∀ s ∈ [sCx1], s ∈ [sCx1]) ∧ ([sCx1] : List Shipment).Nodup ∧
      1 ≤ ([sCx1] : List Shipment).length ∧
      ([sCx1] : List Shipment).length ≤ min 3 ([sCx1] : List Shipment).length := by
    simp
  have hg3 : sumCbm [] + sumCbm [sCx1] ≤ vCx2.max_cbm ∧
      sumWeight [] + sumWeight [sCx1] ≤ vCx2.max_weight := by
    constructor
    · norm_num [sumCbm, sCx1, vCx2, Vehicle.max_cbm, VehicleDimensions.volume]
    · norm_num [sumWeight, sCx1, vCx2]
  simp only [if_neg hg1, if_pos hg2, if_pos hg3]
  simp [modifyV, solC2, sameVid, vCx1, vCx2, removeShip, List.eraseP_cons,
    sameSid, List.foldl_cons,
    show (("V1" : String) == "V2") = false from by decide,
    show (("V2" : String) == "V1") = false from by decide]

/-- C2 (counterexample): `transfer_shipment` commits a move on the very
dict the caller passed in — after the call the caller's solution maps
`V1` to `[]` and `V2` to `[S1]`, not its original lists: the claim that
every operator leaves the caller's solution unchanged is false. -/
theorem transfer_mutates_caller_solution :
    (transfer_shipmentCall solC2 vCx1 vCx2 [sCx1]).1 ≠ solC2 := by
  show transfer_shipment solC2 vCx1 vCx2 [sCx1] ≠ solC2
  rw [transfer_solC2_eval]
  simp [solC2]

/-- C2 (amended): each of the five operators mutates and returns the very
solution object passed to it — the state of the caller's dict after the
call coincides with the returned value (first and second components of
the call semantics agree); only the dispatcher `generate_neighbor` works
on a `copy.deepcopy`, so its caller's solution is left unchanged. -/
theorem operators_return_mutated_argument :
    (∀ d m sol, (generate_neighborCall d m sol).1 = sol) ∧
    (∀ d sol v1 v2 order c tS tT toMove,
      (swap_between_vehiclesCall d sol v1 v2 order c tS tT toMove).1 =
        (swap_between_vehiclesCall d sol v1 v2 order c tS tT toMove).2) ∧
    (∀ sol source target toMove,
      (transfer_shipmentCall sol source target toMove).1 =
        (transfer_shipmentCall sol source target toMove).2) ∧
    (∀ sol v oldPos newPos,
      (relocate_within_vehicleCall sol v oldPos newPos).1 =
        (relocate_within_vehicleCall sol v oldPos newPos).2) ∧
    (∀ sol v start stop,
      (reverse_subrouteCall sol v start stop).1 =
        (reverse_subrouteCall sol v start stop).2) ∧
    (∀ sol, (consolidate_destinationsCall sol).1 =
        (consolidate_destinationsCall sol).2) :=
  ⟨fun _ _ _ => rfl, fun _ _ _ _ _ _ _ _ _ => rfl, fun _ _ _ _ => rfl,
   fun _ _ _ _ => rfl, fun _ _ _ _ => rfl, fun _ => rfl⟩

/-! ## Claim C10: operators never touch the vehicle records -/

/-- The under-utilisation test of `SimulatedAnnealingOptimizer._evaluate`
(`vol_util < 60 or weight_util < 30`), a function of the vehicle record
alone. -/
def underUtilPenalty (v : Vehicle) : Bool :=
  decide (v.get_utilization.2 < 60) || decide (v.get_utilization.1 < 30)

theorem foldl_map_fst_eq {α : Type} (step : Solution → α → Solution)
    (h : ∀ s x, (step s x).map Prod.fst = s.map Prod.fst) :
    ∀ (l : List α) (s : Solution),
      (l.foldl step s).map Prod.fst = s.map Prod.fst
  | [], _ => rfl
  | x :: xs, s => by
    rw [List.foldl_cons, foldl_map_fst_eq step h xs (step s x), h]

theorem swapCommit_map_fst (sol : Solution) (v1 v2 : Vehicle)
    (s1 s2 : Shipment) :
    (swapCommit sol v1 v2 s1 s2).map Prod.fst = sol.map Prod.fst := by
  unfold swapCommit
  rw [modifyV_map_fst, modifyV_map_fst]

theorem single_swap_map_fst (sol : Solution) (v1 v2 : Vehicle)
    (s1 s2 : Shipment) :
    (single_swap sol v1 v2 s1 s2).map Prod.fst = sol.map Prod.fst := by
  rcases hF1 : findEntry sol v1 with _ | ⟨w1, l1⟩ <;>
    rcases hF2 : findEntry sol v2 with _ | ⟨w2, l2⟩ <;>
    simp only [single_swap, hF1, hF2]
  split_ifs <;> first | rfl | exact swapCommit_map_fst ..

theorem destination_swap_map_fst (sol : Solution) (v1 v2 : Vehicle)
    (dest : String) (s1 s2 : Shipment) :
    (destination_swap sol v1 v2 dest s1 s2).map Prod.fst = sol.map Prod.fst := by
  rcases hF1 : findEntry sol v1 with _ | ⟨w1, l1⟩ <;>
    rcases hF2 : findEntry sol v2 with _ | ⟨w2, l2⟩ <;>
    simp only [destination_swap, hF1, hF2]
  split_ifs <;> first | rfl | exact swapCommit_map_fst ..

theorem proximity_swap_map_fst (d : String → String → WithTop ℚ)
    (sol : Solution) (v1 v2 : Vehicle) :
    (proximity_swap d sol v1 v2).map Prod.fst = sol.map Prod.fst := by
  rcases hF1 : findEntry sol v1 with _ | ⟨w1, l1⟩ <;>
    rcases hF2 : findEntry sol v2 with _ | ⟨w2, l2⟩ <;>
    simp only [proximity_swap, hF1, hF2]
  split_ifs with h
  · rfl
  · rcases hfp : findFirstPair (fun s1 s2 =>
        decide (d s1.delivery_location_id s2.delivery_location_id < (500 : ℚ) ∧
          sumCbmWithout l1 s1 + s2.total_cbm ≤ w1.max_cbm ∧
          sumCbmWithout l2 s2 + s1.total_cbm ≤ w2.max_cbm)) l1 l2 with _ | ⟨s1, s2⟩ <;>
      simp only [hfp]
    exact swapCommit_map_fst ..

theorem transfer_shipment_map_fst (sol : Solution) (source target : Vehicle)
    (toMove : List Shipment) :
    (transfer_shipment sol source target toMove).map Prod.fst = sol.map Prod.fst := by
  rcases hF1 : findEntry sol source with _ | ⟨ws, ls⟩ <;>
    rcases hF2 : findEntry sol target with _ | ⟨wt, lt⟩ <;>
    simp only [transfer_shipment, hF1, hF2]
  split_ifs <;> first | rfl | rw [modifyV_map_fst, modifyV_map_fst]

theorem relocate_within_vehicle_map_fst (sol : Solution) (v : Vehicle)
    (oldPos newPos : ℕ) :
    (relocate_within_vehicle sol v oldPos newPos).map Prod.fst = sol.map Prod.fst := by
  rcases hF : lookupV sol v with _ | l <;> simp only [relocate_within_vehicle, hF]
  split_ifs <;> first | rfl | rw [modifyV_map_fst]

theorem reverse_subroute_map_fst (sol : Solution) (v : Vehicle)
    (start stop : ℕ) :
    (reverse_subroute sol v start stop).map Prod.fst = sol.map Prod.fst := by
  rcases hF : lookupV sol v with _ | l <;> simp only [reverse_subroute, hF]
  split_ifs <;> first | rfl | rw [modifyV_map_fst]

theorem consolidateMoveStep_map_fst (sol : Solution) (best : Vehicle)
    (q : Vehicle × Shipment) :
    (consolidateMoveStep sol best q).map Prod.fst = sol.map Prod.fst := by
  unfold consolidateMoveStep
  dsimp only
  split_ifs <;> first | rfl | rw [modifyV_map_fst, modifyV_map_fst]

theorem consolidateGroup_map_fst (sol : Solution)
    (items : List (Vehicle × Shipment)) :
    (consolidateGroup sol items).map Prod.fst = sol.map Prod.fst := by
  unfold consolidateGroup
  dsimp only
  split_ifs with h1 h2
  · rfl
  · rfl
  · rcases hpm : pyMax (fun v => v.max_cbm - (match lookupV sol v with
        | some l => sumCbm l
        | none => 0)) (dedupByVid (items.map Prod.fst)) with _ | best <;>
      simp only [hpm]
    exact foldl_map_fst_eq _ (fun s q => consolidateMoveStep_map_fst s best q)
      items sol

theorem consolidate_destinations_map_fst (sol : Solution) :
    (consolidate_destinations sol).map Prod.fst = sol.map Prod.fst := by
  unfold consolidate_destinations
  exact foldl_map_fst_eq (fun s g => consolidateGroup s g.2)
    (fun (s : Solution) (g : String × List (Vehicle × Shipment)) =>
      consolidateGroup_map_fst s g.2) _ sol

theorem applyStrategy_map_fst (d : String → String → WithTop ℚ)
    (v1 v2 : Vehicle) (c : SwapChoices) (sol : Solution) (st : SwapStrategy) :
    (applyStrategy d v1 v2 c sol st).map Prod.fst = sol.map Prod.fst := by
  cases st
  · exact single_swap_map_fst ..
  · exact destination_swap_map_fst ..
  · exact proximity_swap_map_fst ..

theorem swap_between_vehicles_map_fst (d : String → String → WithTop ℚ)
    (sol : Solution) (v1 v2 : Vehicle) (order : List SwapStrategy)
    (c : SwapChoices) (tS tT : Vehicle) (toMove : List Shipment) :
    (swap_between_vehicles d sol v1 v2 order c tS tT toMove).map Prod.fst =
      sol.map Prod.fst := by
  unfold swap_between_vehicles
  split_ifs with h1 h2
  · rfl
  · rcases hL1 : lookupV sol v1 with _ | l1 <;>
      rcases hL2 : lookupV sol v2 with _ | l2 <;> simp only [hL1, hL2]
    split_ifs with h3
    · exact transfer_shipment_map_fst ..
    · exact foldl_map_fst_eq _ (fun s st => applyStrategy_map_fst d v1 v2 c s st)
        order sol
  · rfl

/-- Penalty maps agree whenever the vehicle records agree. -/
theorem penaltyMap_of_map_fst {a b : Solution}
    (h : a.map Prod.fst = b.map Prod.fst) :
    a.map (fun p => underUtilPenalty p.1) = b.map (fun p => underUtilPenalty p.1) := by
  have h2 := congrArg (List.map underUtilPenalty) h
  simpa [List.map_map, Function.comp] using h2

/-- C10: no neighborhood operator changes any `Vehicle` record — in
particular `current_load_weight`/`current_load_cbm` are untouched, the
key sequence of the solution dict is preserved verbatim — and hence the
under-utilisation penalty decision of `_evaluate`
(`vol_util < 60 or weight_util < 30`, read through `get_utilization`
from the load fields recorded at construction) is identical on the
operator's output and input, independent of the shipment lists. -/
theorem operators_preserve_vehicle_loads :
    (∀ d sol v1 v2 order c tS tT toMove,
      (swap_between_vehicles d sol v1 v2 order c tS tT toMove).map Prod.fst =
        sol.map Prod.fst ∧
      (swap_between_vehicles d sol v1 v2 order c tS tT toMove).map
          (fun p => underUtilPenalty p.1) =
        sol.map (fun p => underUtilPenalty p.1)) ∧
    (∀ sol source target toMove,
      (transfer_shipment sol source target toMove).map Prod.fst =
        sol.map Prod.fst ∧
      (transfer_shipment sol source target toMove).map
          (fun p => underUtilPenalty p.1) =
        sol.map (fun p => underUtilPenalty p.1)) ∧
    (∀ sol v oldPos newPos,
      (relocate_within_vehicle sol v oldPos newPos).map Prod.fst =
        sol.map Prod.fst ∧
      (relocate_within_vehicle sol v oldPos newPos).map
          (fun p => underUtilPenalty p.1) =
        sol.map (fun p => underUtilPenalty p.1)) ∧
    (∀ sol v start stop,
      (reverse_subroute sol v start stop).map Prod.fst = sol.map Prod.fst ∧
      (reverse_subroute sol v start stop).map (fun p => underUtilPenalty p.1) =
        sol.map (fun p => underUtilPenalty p.1)) ∧
    (∀ sol, (consolidate_destinations sol).map Prod.fst = sol.map Prod.fst ∧
      (consolidate_destinations sol).map (fun p => underUtilPenalty p.1) =
        sol.map (fun p => underUtilPenalty p.1)) :=
  ⟨fun d sol v1 v2 order c tS tT toMove =>
      ⟨swap_between_vehicles_map_fst d sol v1 v2 order c tS tT toMove,
       penaltyMap_of_map_fst (swap_between_vehicles_map_fst d sol v1 v2 order c tS tT toMove)⟩,
   fun sol source target toMove =>
      ⟨transfer_shipment_map_fst sol source target toMove,
       penaltyMap_of_map_fst (transfer_shipment_map_fst sol source target toMove)⟩,
   fun sol v oldPos newPos =>
      ⟨relocate_within_vehicle_map_fst sol v oldPos newPos,
       penaltyMap_of_map_fst (relocate_within_vehicle_map_fst sol v oldPos newPos)⟩,
   fun sol v start stop =>
      ⟨reverse_subroute_map_fst sol v start stop,
       penaltyMap_of_map_fst (reverse_subroute_map_fst sol v start stop)⟩,
   fun sol =>
      ⟨consolidate_destinations_map_fst sol,
       penaltyMap_of_map_fst (consolidate_destinations_map_fst sol)⟩⟩

/-! ## Claim C8: multiset preservation machinery -/

/-- The multiset of all shipments of a solution. -/
def shipMultiset (sol : Solution) : Multiset Shipment :=
  (allShipments sol : Multiset Shipment)

theorem shipMultiset_modifyV {sol : Solution} {v : Vehicle} {l : List Shipment}
    (hk : keysNodup sol) (hv : (v, l) ∈ sol)
    (f : List Shipment → List Shipment) :
    shipMultiset (modifyV sol v f) + (l : Multiset Shipment) =
      shipMultiset sol + (f l : Multiset Shipment) := by
  obtain ⟨pre, post, hdec, hmod, _, _⟩ := modifyV_decomp hk hv f
  rw [hmod, hdec]
  unfold shipMultiset
  rw [allShipments_append, allShipments_cons, allShipments_append, allShipments_cons]
  simp only [← Multiset.coe_add]
  abel

theorem shipMultiset_modifyV_eq {sol : Solution} {v : Vehicle}
    {l : List Shipment} (hk : keysNodup sol) (hv : (v, l) ∈ sol)
    {f : List Shipment → List Shipment}
    (hf : (f l : Multiset Shipment) = (l : Multiset Shipment)) :
    shipMultiset (modifyV sol v f) = shipMultiset sol := by
  have h := shipMultiset_modifyV hk hv f
  rw [hf] at h
  exact add_right_cancel h

theorem mem_modifyV_of_ne {sol : Solution} {v : Vehicle}
    {f : List Shipment → List Shipment} {w : Vehicle} {lw : List Shipment}
    (h : (w, lw) ∈ sol) (hne : sameVid w v = false) :
    (w, lw) ∈ modifyV sol v f := by
  unfold modifyV
  exact List.mem_map.mpr ⟨(w, lw), h, by simp [hne]⟩

theorem coe_removeShip {l : List Shipment} {s : Shipment}
    (hn : sidNodup l) (hs : s ∈ l) :
    (removeShip l s : Multiset Shipment) + {s} = (l : Multiset Shipment) := by
  obtain ⟨l₁, l₂, hdec, hrem, _, _⟩ := removeShip_decomp hn hs
  rw [hrem, hdec]
  rw [show ({s} : Multiset Shipment) = (([s] : List Shipment) : Multiset Shipment)
    from rfl]
  rw [Multiset.coe_add, Multiset.coe_eq_coe, List.append_assoc]
  exact List.Perm.append_left l₁ (List.perm_append_singleton s l₂)

theorem coe_append_singleton (l : List Shipment) (s : Shipment) :
    ((l ++ [s] : List Shipment) : Multiset Shipment) =
      (l : Multiset Shipment) + {s} := by
  rw [show ((l ++ [s] : List Shipment) : Multiset Shipment) =
    (l : Multiset Shipment) + (([s] : List Shipment) : Multiset Shipment) from
    (Multiset.coe_add ..).symm]
  rfl

theorem add_switch_cancel {M N R X Y : Multiset Shipment}
    (h : M + (R + X) = N + (R + Y)) : M + X = N + Y := by
  rw [← add_assoc, ← add_assoc, add_right_comm M R X, add_right_comm N R Y] at h
  exact add_right_cancel h

theorem shipMultiset_swapCommit {sol : Solution} {v1 v2 : Vehicle}
    {l1 l2 : List Shipment} {s1 s2 : Shipment}
    (hk : keysNodup sol) (hids : idsNodup sol)
    (h1 : (v1, l1) ∈ sol) (h2 : (v2, l2) ∈ sol)
    (hne : v1.vehicle_id ≠ v2.vehicle_id)
    (hs1 : s1 ∈ l1) (hs2 : s2 ∈ l2) :
    shipMultiset (swapCommit sol v1 v2 s1 s2) = shipMultiset sol := by
  have hn1 := sidNodup_of_entry hids h1
  have hn2 := sidNodup_of_entry hids h2
  have hkA : keysNodup (modifyV sol v1 (fun l => removeShip l s1 ++ [s2])) :=
    keysNodup_modifyV hk
  have h2A : (v2, l2) ∈ modifyV sol v1 (fun l => removeShip l s1 ++ [s2]) :=
    mem_modifyV_of_ne h2 (by
      rw [Bool.eq_false_iff]
      intro ht
      exact hne ((sameVid_eq_true_iff.mp ht).symm))
  have e1 := shipMultiset_modifyV hk h1 (fun l => removeShip l s1 ++ [s2])
  have e2 := shipMultiset_modifyV hkA h2A (fun l => removeShip l s2 ++ [s1])
  simp only at e1 e2
  rw [coe_append_singleton] at e1 e2
  rw [show (l1 : Multiset Shipment) =
    (removeShip l1 s1 : Multiset Shipment) + {s1} from (coe_removeShip hn1 hs1).symm]
    at e1
  rw [show (l2 : Multiset Shipment) =
    (removeShip l2 s2 : Multiset Shipment) + {s2} from (coe_removeShip hn2 hs2).symm]
    at e2
  have e1' := add_switch_cancel e1
  have e2' := add_switch_cancel e2
  show shipMultiset (modifyV (modifyV sol v1 (fun l => removeShip l s1 ++ [s2]))
    v2 (fun l => removeShip l s2 ++ [s1])) = shipMultiset sol
  have : shipMultiset (modifyV (modifyV sol v1 fun l => removeShip l s1 ++ [s2])
      v2 fun l => removeShip l s2 ++ [s1]) + {s2} = shipMultiset sol + {s2} := by
    rw [e2', e1']
  exact add_right_cancel this

theorem coe_cons_eq {α : Type} (s : α) (rest : List α) :
    ((s :: rest : List α) : Multiset α) =
      (rest : Multiset α) + {s} := by
  rw [show ({s} : Multiset α) = (([s] : List α) : Multiset α)
    from rfl]
  rw [Multiset.coe_add, Multiset.coe_eq_coe]
  exact (List.perm_append_singleton s rest).symm

theorem coe_foldl_removeShip :
    ∀ (toMove : List Shipment) {l : List Shipment}, sidNodup l →
      (∀ s ∈ toMove, s ∈ l) → toMove.Nodup →
      ((toMove.foldl removeShip l : List Shipment) : Multiset Shipment) +
        (toMove : Multiset Shipment) = (l : Multiset Shipment)
  | [], l, _, _, _ => by simp
  | s :: rest, l, hn, hmem, hnd => by
    have hs : s ∈ l := hmem s (List.mem_cons_self ..)
    have ih := coe_foldl_removeShip rest (sidNodup_removeShip hn)
      (fun t ht => mem_removeShip_of_ne hn hs (hmem t (List.mem_cons_of_mem _ ht))
        (fun e => (List.nodup_cons.mp hnd).1 (e ▸ ht)))
      (List.nodup_cons.mp hnd).2
    rw [List.foldl_cons, coe_cons_eq, ← add_assoc, ih, coe_removeShip hn hs]

theorem single_swap_multiset (sol : Solution) (v1 v2 : Vehicle)
    (s1 s2 : Shipment) (hk : keysNodup sol) (hids : idsNodup sol) :
    shipMultiset (single_swap sol v1 v2 s1 s2) = shipMultiset sol := by
  rcases hF1 : findEntry sol v1 with _ | ⟨w1, l1⟩ <;>
    rcases hF2 : findEntry sol v2 with _ | ⟨w2, l2⟩ <;>
    simp only [single_swap, hF1, hF2]
  split_ifs with hemp hch hcap
  · rfl
  · exact shipMultiset_swapCommit hk hids (findEntry_mem hF1).1
      (findEntry_mem hF2).1 hch.2.2 hch.1 hch.2.1
  · rfl
  · rfl

theorem destination_swap_multiset (sol : Solution) (v1 v2 : Vehicle)
    (dest : String) (s1 s2 : Shipment) (hk : keysNodup sol)
    (hids : idsNodup sol) :
    shipMultiset (destination_swap sol v1 v2 dest s1 s2) = shipMultiset sol := by
  rcases hF1 : findEntry sol v1 with _ | ⟨w1, l1⟩ <;>
    rcases hF2 : findEntry sol v2 with _ | ⟨w2, l2⟩ <;>
    simp only [destination_swap, hF1, hF2]
  split_ifs with hemp hch hcap
  · rfl
  · exact shipMultiset_swapCommit hk hids (findEntry_mem hF1).1
      (findEntry_mem hF2).1 hch.2.2 (List.mem_filter.mp hch.2.1.1).1
      (List.mem_filter.mp hch.2.1.2).1
  · rfl
  · rfl

theorem proximity_swap_multiset (d : String → String → WithTop ℚ)
    (sol : Solution) (v1 v2 : Vehicle) (hk : keysNodup sol)
    (hids : idsNodup sol) :
    shipMultiset (proximity_swap d sol v1 v2) = shipMultiset sol := by
  rcases hF1 : findEntry sol v1 with _ | ⟨w1, l1⟩ <;>
    rcases hF2 : findEntry sol v2 with _ | ⟨w2, l2⟩ <;>
    simp only [proximity_swap, hF1, hF2]
  split_ifs with h
  · rfl
  · rcases hfp : findFirstPair (fun s1 s2 =>
        decide (d s1.delivery_location_id s2.delivery_location_id < (500 : ℚ) ∧
          sumCbmWithout l1 s1 + s2.total_cbm ≤ w1.max_cbm ∧
          sumCbmWithout l2 s2 + s1.total_cbm ≤ w2.max_cbm)) l1 l2 with _ | ⟨s1, s2⟩ <;>
      simp only [hfp]
    obtain ⟨hs1, hs2, _⟩ := findFirstPair_some hfp
    have hne : w1.vehicle_id ≠ w2.vehicle_id := by tauto
    exact shipMultiset_swapCommit hk hids (findEntry_mem hF1).1
      (findEntry_mem hF2).1 hne hs1 hs2

theorem transfer_shipment_multiset (sol : Solution) (source target : Vehicle)
    (toMove : List Shipment) (hk : keysNodup sol) (hids : idsNodup sol) :
    shipMultiset (transfer_shipment sol source target toMove) = shipMultiset sol := by
  rcases hF1 : findEntry sol source with _ | ⟨ws, ls⟩ <;>
    rcases hF2 : findEntry sol target with _ | ⟨wt, lt⟩ <;>
    simp only [transfer_shipment, hF1, hF2]
  split_ifs with hemp hch hcap
  · rfl
  · obtain ⟨hms, _⟩ := findEntry_mem hF1
    obtain ⟨hmt, _⟩ := findEntry_mem hF2
    have hne : ws.vehicle_id ≠ wt.vehicle_id := by tauto
    have hns := sidNodup_of_entry hids hms
    have hkA : keysNodup (modifyV sol ws (fun l => toMove.foldl removeShip l)) :=
      keysNodup_modifyV hk
    have hmtA : (wt, lt) ∈ modifyV sol ws (fun l => toMove.foldl removeShip l) :=
      mem_modifyV_of_ne hmt (by
        rw [Bool.eq_false_iff]
        intro ht
        exact hne ((sameVid_eq_true_iff.mp ht).symm))
    have e1 := shipMultiset_modifyV hk hms (fun l => toMove.foldl removeShip l)
    have e2 := shipMultiset_modifyV hkA hmtA (fun l => l ++ toMove)
    simp only at e1 e2
    rw [show ((lt ++ toMove : List Shipment) : Multiset Shipment) =
      (lt : Multiset Shipment) + (toMove : Multiset Shipment) from
      (Multiset.coe_add ..).symm] at e2
    rw [show (ls : Multiset Shipment) =
      ((toMove.foldl removeShip ls : List Shipment) : Multiset Shipment) +
        (toMove : Multiset Shipment) from
      (coe_foldl_removeShip toMove hns hch.1 hch.2.1).symm] at e1
    have e1' : shipMultiset (modifyV sol ws fun l => toMove.foldl removeShip l) +
        (toMove : Multiset Shipment) = shipMultiset sol := by
      rw [add_comm ((toMove.foldl removeShip ls : List Shipment) : Multiset Shipment)
        ((toMove : List Shipment) : Multiset Shipment), ← add_assoc] at e1
      exact add_right_cancel e1
    have e2' : shipMultiset (modifyV (modifyV sol ws fun l => toMove.foldl removeShip l)
        wt fun l => l ++ toMove) + (lt : Multiset Shipment) =
        shipMultiset sol + (lt : Multiset Shipment) := by
      rw [e2, add_comm (lt : Multiset Shipment) (toMove : Multiset Shipment),
        ← add_assoc, e1']
    exact add_right_cancel e2'
  · rfl
  · rfl

theorem perm_insertIdx_ship (a : Shipment) :
    ∀ (n : ℕ) (l : List Shipment), n ≤ l.length →
      (List.insertIdx n a l).Perm (a :: l)
  | 0, l, _ => by simp [List.insertIdx_zero]
  | n + 1, [], h => by simp at h
  | n + 1, x :: xs, h => by
    rw [List.insertIdx_succ_cons]
    exact ((perm_insertIdx_ship a n xs (by simpa using h)).cons x).trans
      (List.Perm.swap a x xs)

theorem perm_eraseIdx_ship :
    ∀ (i : ℕ) (l : List Shipment), i < l.length →
      l.Perm (l.getD i dummyShipment :: l.eraseIdx i)
  | 0, x :: xs, _ => by simp
  | i + 1, x :: xs, h => by
    simp only [List.getD_cons_succ, List.eraseIdx_cons_succ]
    exact ((perm_eraseIdx_ship i xs (by simpa using h)).cons x).trans
      (List.Perm.swap (xs.getD i dummyShipment) x _)

theorem modifyV_congr_vid {sol : Solution} {f : List Shipment → List Shipment}
    {v w : Vehicle} (h : w.vehicle_id = v.vehicle_id) :
    modifyV sol v f = modifyV sol w f := by
  unfold modifyV
  apply List.map_congr_left
  intro p _
  simp [sameVid, h]

theorem relocate_within_vehicle_multiset (sol : Solution) (v : Vehicle)
    (oldPos newPos : ℕ) (hk : keysNodup sol) :
    shipMultiset (relocate_within_vehicle sol v oldPos newPos) = shipMultiset sol := by
  rcases hE : findEntry sol v with _ | ⟨w, lw⟩
  · have hF : lookupV sol v = none := by
      unfold lookupV
      rw [hE]
      rfl
    simp only [relocate_within_vehicle, hF]
  · have hF : lookupV sol v = some lw := by
      unfold lookupV
      rw [hE]
      rfl
    simp only [relocate_within_vehicle, hF]
    obtain ⟨hmem, hid⟩ := findEntry_mem hE
    split_ifs with hlen hne
    · rw [modifyV_congr_vid hid]
      apply shipMultiset_modifyV_eq hk hmem
      rw [Multiset.coe_eq_coe]
      refine (perm_insertIdx_ship _ newPos _ ?_).trans
        (perm_eraseIdx_ship oldPos lw hlen.2.1).symm
      rw [List.length_eraseIdx_of_lt hlen.2.1]
      omega
    · rfl
    · rfl

theorem reverse_subroute_multiset (sol : Solution) (v : Vehicle)
    (start stop : ℕ) (hk : keysNodup sol) :
    shipMultiset (reverse_subroute sol v start stop) = shipMultiset sol := by
  rcases hE : findEntry sol v with _ | ⟨w, lw⟩
  · have hF : lookupV sol v = none := by
      unfold lookupV
      rw [hE]
      rfl
    simp only [reverse_subroute, hF]
  · have hF : lookupV sol v = some lw := by
      unfold lookupV
      rw [hE]
      rfl
    simp only [reverse_subroute, hF]
    obtain ⟨hmem, hid⟩ := findEntry_mem hE
    split_ifs with hlen
    · rw [modifyV_congr_vid hid]
      apply shipMultiset_modifyV_eq hk hmem
      rw [Multiset.coe_eq_coe]
      have hdec : lw = lw.take start ++
          ((lw.drop start).take (stop - start) ++ lw.drop stop) := by
        conv_lhs => rw [← List.take_append_drop start lw]
        congr 1
        conv_lhs => rw [← List.take_append_drop (stop - start) (lw.drop start)]
        congr 1
        rw [List.drop_drop]
        congr 1
        omega
      conv_rhs => rw [hdec, ← List.append_assoc]
      exact List.Perm.append_right _
        (List.Perm.append_left _ (List.reverse_perm _))
    · rfl

/-! ### `consolidate_destinations`: step and fold specifications -/

theorem pyMax_mem {key : Vehicle → ℚ} :
    ∀ {l : List Vehicle} {b : Vehicle}, pyMax key l = some b → b ∈ l := by
  have haux : ∀ (xs : List Vehicle) (x : Vehicle),
      xs.foldl (fun b a => if key b < key a then a else b) x ∈ x :: xs := by
    intro xs
    induction xs with
    | nil => intro x; simp
    | cons y ys ih =>
      intro x
      rw [List.foldl_cons]
      by_cases h : key x < key y
      · simp only [if_pos h]
        have := ih y
        rcases List.mem_cons.mp this with h' | h'
        · rw [h']; simp
        · exact List.mem_cons_of_mem _ (List.mem_cons_of_mem _ h')
      · simp only [if_neg h]
        have := ih x
        rcases List.mem_cons.mp this with h' | h'
        · rw [h']; simp
        · exact List.mem_cons_of_mem _ (List.mem_cons_of_mem _ h')
  intro l b h
  match l, h with
  | x :: xs, h =>
    injection h with h
    rw [← h]
    exact haux xs x

theorem dedupByVid_subset : ∀ {vs : List Vehicle} {v : Vehicle},
    v ∈ dedupByVid vs → v ∈ vs := by
  have haux : ∀ (vs acc : List Vehicle) (v : Vehicle),
      v ∈ vs.foldl (fun acc v => if acc.any (sameVid v) then acc else acc ++ [v]) acc →
      v ∈ acc ∨ v ∈ vs := by
    intro vs
    induction vs with
    | nil => intro acc v h; exact Or.inl h
    | cons x xs ih =>
      intro acc v h
      rw [List.foldl_cons] at h
      rcases ih _ v h with h' | h'
      · by_cases hx : acc.any (sameVid x)
        · rw [if_pos hx] at h'
          exact Or.inl h'
        · rw [if_neg hx] at h'
          rcases List.mem_append.mp h' with h'' | h''
          · exact Or.inl h''
          · rcases List.mem_singleton.mp h'' with rfl
            exact Or.inr (List.mem_cons_self ..)
      · exact Or.inr (List.mem_cons_of_mem _ h')
  intro vs v h
  rcases haux vs [] v h with h' | h'
  · cases h'
  · exact h'

theorem keysNodup_of_map_fst_eq {a b : Solution}
    (h : a.map Prod.fst = b.map Prod.fst) (hb : keysNodup b) : keysNodup a := by
  unfold keysNodup at *
  have h2 := congrArg (List.map (fun w : Vehicle => w.vehicle_id)) h
  simp only [List.map_map, Function.comp] at h2
  rw [show (a.map fun p => p.1.vehicle_id) =
    (a.map fun p => (fun w : Vehicle => w.vehicle_id) p.1) from rfl]
  rw [show (List.map (fun p => (fun w : Vehicle => w.vehicle_id) p.1) a) =
    (List.map ((fun w : Vehicle => w.vehicle_id) ∘ Prod.fst) a) from rfl]
  rw [← List.map_map, h]
  rw [List.map_map]
  exact hb

theorem idsNodup_of_shipMultiset_eq {a b : Solution}
    (h : shipMultiset a = shipMultiset b) (hb : idsNodup b) : idsNodup a := by
  unfold idsNodup at *
  have hperm : (allShipments a).Perm (allShipments b) := Multiset.coe_eq_coe.mp h
  exact ((hperm.map _).nodup_iff).mpr hb

theorem exists_entry_of_map_fst_eq {a b : Solution}
    (h : a.map Prod.fst = b.map Prod.fst) {w : Vehicle} {lw : List Shipment}
    (hw : (w, lw) ∈ b) : ∃ l', (w, l') ∈ a := by
  have : w ∈ a.map Prod.fst := by
    rw [h]
    exact List.mem_map.mpr ⟨(w, lw), hw, rfl⟩
  obtain ⟨p, hp, hpw⟩ := List.mem_map.mp this
  exact ⟨p.2, by rwa [show (w, p.2) = p from by rw [← hpw]]⟩

theorem mem_modifyV_self {sol : Solution} {v : Vehicle} {l : List Shipment}
    (hk : keysNodup sol) (hv : (v, l) ∈ sol)
    (f : List Shipment → List Shipment) : (v, f l) ∈ modifyV sol v f := by
  obtain ⟨pre, post, _, hmod, _, _⟩ := modifyV_decomp hk hv f
  rw [hmod]
  exact List.mem_append.mpr (Or.inr (List.mem_cons_self ..))

theorem consolidateMoveStep_spec {sol : Solution} (best : Vehicle)
    {q : Vehicle × Shipment} (hk : keysNodup sol) (hids : idsNodup sol)
    (hbest : ∃ lb, (best, lb) ∈ sol)
    (hq : ∃ l, (q.1, l) ∈ sol ∧ q.2 ∈ l) :
    shipMultiset (consolidateMoveStep sol best q) = shipMultiset sol ∧
    (∀ w t, t.shipment_id ≠ q.2.shipment_id →
      (∃ l, (w, l) ∈ sol ∧ t ∈ l) →
      ∃ l', (w, l') ∈ consolidateMoveStep sol best q ∧ t ∈ l') := by
  obtain ⟨lq, hlq, hsq⟩ := hq
  obtain ⟨lb, hlb⟩ := hbest
  unfold consolidateMoveStep
  dsimp only
  split_ifs with hsame hcap
  · exact ⟨rfl, fun w t _ h => h⟩
  · have hneids : q.1.vehicle_id ≠ best.vehicle_id := by
      intro h
      exact hsame (sameVid_eq_true_iff.mpr h)
    have hnq := sidNodup_of_entry hids hlq
    have hkA : keysNodup (modifyV sol q.1 (fun l => removeShip l q.2)) :=
      keysNodup_modifyV hk
    have hlbA : (best, lb) ∈ modifyV sol q.1 (fun l => removeShip l q.2) :=
      mem_modifyV_of_ne hlb (by
        rw [Bool.eq_false_iff]
        intro ht
        exact hneids ((sameVid_eq_true_iff.mp ht).symm))
    constructor
    · have e1 := shipMultiset_modifyV hk hlq (fun l => removeShip l q.2)
      have e2 := shipMultiset_modifyV hkA hlbA (fun l => l ++ [q.2])
      simp only at e1 e2
      rw [coe_append_singleton] at e2
      rw [show (lq : Multiset Shipment) =
        ((removeShip lq q.2 : List Shipment) : Multiset Shipment) + {q.2} from
        (coe_removeShip hnq hsq).symm] at e1
      have e1' : shipMultiset (modifyV sol q.1 fun l => removeShip l q.2) + {q.2} =
          shipMultiset sol := by
        rw [← add_assoc, add_right_comm] at e1
        exact add_right_cancel e1
      have e2' : shipMultiset (modifyV (modifyV sol q.1 fun l => removeShip l q.2)
          best fun l => l ++ [q.2]) + (lb : Multiset Shipment) =
          shipMultiset sol + (lb : Multiset Shipment) := by
        rw [e2, add_comm ((lb : List Shipment) : Multiset Shipment)
          ({q.2} : Multiset Shipment), ← add_assoc, e1']
      exact add_right_cancel e2'
    · intro w t htid ⟨lw, hlw, htl⟩
      by_cases hwq : w.vehicle_id = q.1.vehicle_id
      · have hq1 := entry_unique hk hlq hlw hwq
        injection hq1 with hqa hqb
        subst hqa
        subst hqb
        refine ⟨removeShip lw q.2, ?_, ?_⟩
        · exact mem_modifyV_of_ne
            (mem_modifyV_self hk hlq (fun l => removeShip l q.2))
            (Bool.eq_false_iff.mpr hsame)
        · exact mem_removeShip_of_ne hnq hsq htl
            (fun e => htid (congrArg Shipment.shipment_id e))
      · by_cases hwb : w.vehicle_id = best.vehicle_id
        · have hq1 := entry_unique hk hlb hlw hwb
          injection hq1 with hqa hqb
          subst hqa
          subst hqb
          refine ⟨lw ++ [q.2], ?_, List.mem_append.mpr (Or.inl htl)⟩
          exact mem_modifyV_self hkA hlbA (fun l => l ++ [q.2])
        · refine ⟨lw, ?_, htl⟩
          refine mem_modifyV_of_ne (mem_modifyV_of_ne hlw ?_) ?_
          · rw [Bool.eq_false_iff]
            intro ht
            exact hwq (sameVid_eq_true_iff.mp ht)
          · rw [Bool.eq_false_iff]
            intro ht
            exact hwb (sameVid_eq_true_iff.mp ht)
  · exact ⟨rfl, fun w t _ h => h⟩

theorem consolidateFold_spec (best : Vehicle) :
    ∀ (items : List (Vehicle × Shipment)) (sol : Solution),
      keysNodup sol → idsNodup sol → (∃ lb, (best, lb) ∈ sol) →
      (∀ q ∈ items, ∃ l, (q.1, l) ∈ sol ∧ q.2 ∈ l) →
      ((items.map (fun q => q.2.shipment_id)).Nodup) →
      shipMultiset (items.foldl (fun s q => consolidateMoveStep s best q) sol) =
        shipMultiset sol ∧
      (∀ w t, (∀ q ∈ items, t.shipment_id ≠ q.2.shipment_id) →
        (∃ l, (w, l) ∈ sol ∧ t ∈ l) →
        ∃ l', (w, l') ∈ items.foldl (fun s q => consolidateMoveStep s best q) sol ∧
          t ∈ l')
  | [], sol, _, _, _, _, _ => ⟨rfl, fun _ _ _ h => h⟩
  | q0 :: rest, sol, hk, hids, hbest, hpres, hnd => by
    obtain ⟨hm0, hp0⟩ := consolidateMoveStep_spec best hk hids hbest
      (hpres q0 (List.mem_cons_self ..))
    have hfst := consolidateMoveStep_map_fst sol best q0
    have hk1 : keysNodup (consolidateMoveStep sol best q0) :=
      keysNodup_of_map_fst_eq hfst hk
    have hids1 : idsNodup (consolidateMoveStep sol best q0) :=
      idsNodup_of_shipMultiset_eq hm0 hids
    have hbest1 : ∃ lb, (best, lb) ∈ consolidateMoveStep sol best q0 := by
      obtain ⟨lb, hlb⟩ := hbest
      exact exists_entry_of_map_fst_eq hfst hlb
    have hpres1 : ∀ q ∈ rest, ∃ l, (q.1, l) ∈ consolidateMoveStep sol best q0 ∧
        q.2 ∈ l := by
      intro q hq
      refine hp0 q.1 q.2 ?_ (hpres q (List.mem_cons_of_mem _ hq))
      intro he
      apply (List.nodup_cons.mp hnd).1
      have hx : q.2.shipment_id ∈ rest.map (fun q => q.2.shipment_id) :=
        List.mem_map_of_mem _ hq
      rwa [he] at hx
    obtain ⟨ihm, ihp⟩ := consolidateFold_spec best rest
      (consolidateMoveStep sol best q0) hk1 hids1 hbest1 hpres1
      (by
        have := (List.nodup_cons.mp hnd).2
        simpa using this)
    rw [List.foldl_cons]
    refine ⟨by rw [ihm, hm0], ?_⟩
    intro w t htid hex
    exact ihp w t (fun q hq => htid q (List.mem_cons_of_mem _ hq))
      (hp0 w t (htid q0 (List.mem_cons_self ..)) hex)

theorem consolidateGroup_spec (sol : Solution)
    (items : List (Vehicle × Shipment)) (hk : keysNodup sol)
    (hids : idsNodup sol)
    (hpres : ∀ q ∈ items, ∃ l, (q.1, l) ∈ sol ∧ q.2 ∈ l)
    (hnd : (items.map (fun q => q.2.shipment_id)).Nodup) :
    shipMultiset (consolidateGroup sol items) = shipMultiset sol ∧
    (∀ w t, (∀ q ∈ items, t.shipment_id ≠ q.2.shipment_id) →
      (∃ l, (w, l) ∈ sol ∧ t ∈ l) →
      ∃ l', (w, l') ∈ consolidateGroup sol items ∧ t ∈ l') := by
  unfold consolidateGroup
  dsimp only
  split_ifs with h1 h2
  · exact ⟨rfl, fun _ _ _ h => h⟩
  · exact ⟨rfl, fun _ _ _ h => h⟩
  · rcases hpm : pyMax (fun v => v.max_cbm - (match lookupV sol v with
        | some l => sumCbm l
        | none => 0)) (dedupByVid (items.map Prod.fst)) with _ | best <;>
      simp only [hpm]
    · exact ⟨by trivial, fun _ _ _ h => h⟩
    · have hbmem : best ∈ items.map Prod.fst :=
        dedupByVid_subset (pyMax_mem hpm)
      obtain ⟨q, hqmem, hqb⟩ := List.mem_map.mp hbmem
      have hbest : ∃ lb, (best, lb) ∈ sol := by
        obtain ⟨l, hl, _⟩ := hpres q hqmem
        exact ⟨l, hqb ▸ hl⟩
      exact consolidateFold_spec best items sol hk hids hbest hpres hnd

/-- All pairs collected in the destination groups. -/
def groupPairs (gs : List (String × List (Vehicle × Shipment))) :
    List (Vehicle × Shipment) :=
  List.flatMap gs Prod.snd

theorem upsertGroup_spec (dest : String) (item : Vehicle × Shipment) :
    ∀ (acc : List (String × List (Vehicle × Shipment))),
      ((acc.map Prod.fst).Nodup) →
      ((upsertGroup acc dest item).map Prod.fst = acc.map Prod.fst ∨
        (upsertGroup acc dest item).map Prod.fst = acc.map Prod.fst ++ [dest]) ∧
      ((upsertGroup acc dest item).map Prod.fst).Nodup ∧
      (groupPairs (upsertGroup acc dest item) : Multiset (Vehicle × Shipment)) =
        (groupPairs acc : Multiset (Vehicle × Shipment)) + {item}
  | [], _ => by
    refine ⟨Or.inr (by simp [upsertGroup, groupPairs]), ?_, ?_⟩
    · simp [upsertGroup]
    · simp [upsertGroup, groupPairs]
  | g :: rest, hnd => by
    by_cases hgd : g.1 = dest
    · have hany : (g :: rest).any (fun x => x.1 == dest) = true := by
        simp [hgd]
      have hmap : upsertGroup (g :: rest) dest item =
          (g.1, g.2 ++ [item]) :: rest := by
        unfold upsertGroup
        rw [if_pos hany]
        rw [List.map_cons]
        rw [if_pos (by simp [hgd])]
        congr 1
        conv_rhs => rw [← List.map_id rest]
        apply List.map_congr_left
        intro p hp
        have hne : (p.1 == dest) = false := by
          rw [beq_eq_false_iff_ne]
          intro he
          have : p.1 ∈ rest.map Prod.fst := List.mem_map_of_mem _ hp
          rw [he, ← hgd] at this
          exact (List.nodup_cons.mp hnd).1 this
        simp [hne]
      rw [hmap]
      refine ⟨Or.inl (by simp), by simpa using hnd, ?_⟩
      unfold groupPairs
      rw [List.flatMap_cons, List.flatMap_cons]
      simp only [← Multiset.coe_add]
      rw [Multiset.coe_singleton]
      abel
    · have hstep : upsertGroup (g :: rest) dest item =
          g :: upsertGroup rest dest item := by
        unfold upsertGroup
        have hga : ((g :: rest).any (fun x => x.1 == dest)) =
            (rest.any (fun x => x.1 == dest)) := by
          simp [List.any_cons, beq_eq_false_iff_ne.mpr hgd]
        by_cases hra : rest.any (fun x => x.1 == dest)
        · rw [if_pos (by rw [hga]; exact hra), if_pos hra, List.map_cons,
            if_neg (by simp [beq_eq_false_iff_ne.mpr hgd])]
        · rw [if_neg (by rw [hga]; exact hra), if_neg hra]
          simp
      obtain ⟨hkeys, hknd, hmul⟩ := upsertGroup_spec dest item rest
        (List.nodup_cons.mp hnd).2
      rw [hstep]
      refine ⟨?_, ?_, ?_⟩
      · rcases hkeys with h | h
        · exact Or.inl (by rw [List.map_cons, h, List.map_cons])
        · refine Or.inr ?_
          rw [List.map_cons, h, List.map_cons]
          simp
      · rw [List.map_cons, List.nodup_cons]
        refine ⟨?_, hknd⟩
        rcases hkeys with h | h
        · rw [h]
          exact (List.nodup_cons.mp hnd).1
        · rw [h]
          intro hmem
          rcases List.mem_append.mp hmem with hmem | hmem
          · exact (List.nodup_cons.mp hnd).1 hmem
          · exact hgd (List.mem_singleton.mp hmem)
      · unfold groupPairs at *
        rw [List.flatMap_cons, List.flatMap_cons]
        simp only [← Multiset.coe_add] at *
        rw [hmul]
        abel

theorem destGroupsAux_spec (pairs : List (Vehicle × Shipment)) :
    ∀ (acc : List (String × List (Vehicle × Shipment))),
      ((acc.map Prod.fst).Nodup) →
      (((pairs.foldl (fun a q => upsertGroup a q.2.delivery_location_id q) acc).map
          Prod.fst).Nodup) ∧
      (groupPairs (pairs.foldl (fun a q => upsertGroup a q.2.delivery_location_id q)
          acc) : Multiset (Vehicle × Shipment)) =
        (groupPairs acc : Multiset (Vehicle × Shipment)) +
          (pairs : Multiset (Vehicle × Shipment)) := by
  induction pairs with
  | nil =>
    intro acc hnd
    exact ⟨hnd, by simp⟩
  | cons q rest ih =>
    intro acc hnd
    obtain ⟨_, hknd, hmul⟩ := upsertGroup_spec q.2.delivery_location_id q acc hnd
    obtain ⟨ihnd, ihmul⟩ := ih (upsertGroup acc q.2.delivery_location_id q) hknd
    rw [List.foldl_cons]
    refine ⟨ihnd, ?_⟩
    rw [ihmul, hmul, coe_cons_eq]
    abel

theorem destGroups_spec (sol : Solution) :
    (((destGroups sol).map Prod.fst).Nodup) ∧
    (groupPairs (destGroups sol) : Multiset (Vehicle × Shipment)) =
      (solPairs sol : Multiset (Vehicle × Shipment)) := by
  unfold destGroups
  obtain ⟨hnd, hmul⟩ := destGroupsAux_spec (solPairs sol) [] (by simp)
  refine ⟨hnd, ?_⟩
  rw [hmul]
  simp [groupPairs]

theorem solPairs_mem {sol : Solution} {q : Vehicle × Shipment}
    (h : q ∈ solPairs sol) : ∃ l, (q.1, l) ∈ sol ∧ q.2 ∈ l := by
  unfold solPairs at h
  obtain ⟨p, hp, hq⟩ := List.mem_flatMap.mp h
  obtain ⟨s, hs, hqs⟩ := List.mem_map.mp hq
  refine ⟨p.2, ?_, ?_⟩
  · rw [show q.1 = p.1 from by rw [← hqs]]
    simpa using hp
  · rw [show q.2 = s from by rw [← hqs]]
    exact hs

theorem solPairs_map_snd (sol : Solution) :
    (solPairs sol).map Prod.snd = allShipments sol := by
  unfold solPairs allShipments
  rw [List.map_flatMap]
  congr 1
  funext p
  rw [List.map_map]
  simp

theorem consolidateGroupsFold_spec :
    ∀ (gs : List (String × List (Vehicle × Shipment))) (sol : Solution),
      keysNodup sol → idsNodup sol →
      (∀ q ∈ groupPairs gs, ∃ l, (q.1, l) ∈ sol ∧ q.2 ∈ l) →
      (((groupPairs gs).map (fun q => q.2.shipment_id)).Nodup) →
      shipMultiset (gs.foldl (fun s g => consolidateGroup s g.2) sol) =
        shipMultiset sol
  | [], _, _, _, _, _ => rfl
  | g :: rest, sol, hk, hids, hpres, hnd => by
    have hgp : groupPairs (g :: rest) = g.2 ++ groupPairs rest := by
      unfold groupPairs
      rw [List.flatMap_cons]
    rw [hgp] at hpres hnd
    rw [List.map_append] at hnd
    obtain ⟨hndl, hndr, hdisj⟩ := List.nodup_append.mp hnd
    obtain ⟨hm, hp⟩ := consolidateGroup_spec sol g.2 hk hids
      (fun q hq => hpres q (List.mem_append.mpr (Or.inl hq))) hndl
    have hfst := consolidateGroup_map_fst sol g.2
    have hk1 : keysNodup (consolidateGroup sol g.2) :=
      keysNodup_of_map_fst_eq hfst hk
    have hids1 : idsNodup (consolidateGroup sol g.2) :=
      idsNodup_of_shipMultiset_eq hm hids
    have hpres1 : ∀ q ∈ groupPairs rest,
        ∃ l, (q.1, l) ∈ consolidateGroup sol g.2 ∧ q.2 ∈ l := by
      intro q hq
      refine hp q.1 q.2 ?_ (hpres q (List.mem_append.mpr (Or.inr hq)))
      intro q' hq' he
      have hx : q'.2.shipment_id ∈
          g.2.map (fun r : Vehicle × Shipment => r.2.shipment_id) :=
        List.mem_map_of_mem _ hq'
      rw [← he] at hx
      exact hdisj hx (List.mem_map_of_mem _ hq)
    have := consolidateGroupsFold_spec rest (consolidateGroup sol g.2)
      hk1 hids1 hpres1 hndr
    rw [List.foldl_cons, this, hm]

theorem consolidate_destinations_multiset (sol : Solution)
    (hk : keysNodup sol) (hids : idsNodup sol) :
    shipMultiset (consolidate_destinations sol) = shipMultiset sol := by
  unfold consolidate_destinations
  obtain ⟨hgnd, hgm⟩ := destGroups_spec sol
  have hperm : (groupPairs (destGroups sol)).Perm (solPairs sol) :=
    Multiset.coe_eq_coe.mp hgm
  have hpres : ∀ q ∈ groupPairs (destGroups sol),
      ∃ l, (q.1, l) ∈ sol ∧ q.2 ∈ l := by
    intro q hq
    exact solPairs_mem (hperm.mem_iff.mp hq)
  have hnd : ((groupPairs (destGroups sol)).map
      (fun q => q.2.shipment_id)).Nodup := by
    refine ((hperm.map _).nodup_iff).mpr ?_
    have hmaps : (solPairs sol).map (fun q => q.2.shipment_id) =
        (allShipments sol).map (·.shipment_id) := by
      rw [← solPairs_map_snd sol, List.map_map]
      rfl
    rw [hmaps]
    exact hids
  exact consolidateGroupsFold_spec (destGroups sol) sol hk hids hpres hnd

/-- C8: every neighborhood operator preserves the multiset of shipments:
on any solution with unique vehicle keys in which each shipment id occurs
in exactly one vehicle's list, the returned solution holds exactly the
same shipments — none lost, none duplicated — and each still occurs in
exactly one list. -/
theorem neighborhood_multiset_invariant :
    (∀ sol v1 v2 s1 s2, keysNodup sol → idsNodup sol →
      shipMultiset (single_swap sol v1 v2 s1 s2) = shipMultiset sol ∧
      idsNodup (single_swap sol v1 v2 s1 s2)) ∧
    (∀ sol v1 v2 dest s1 s2, keysNodup sol → idsNodup sol →
      shipMultiset (destination_swap sol v1 v2 dest s1 s2) = shipMultiset sol ∧
      idsNodup (destination_swap sol v1 v2 dest s1 s2)) ∧
    (∀ d sol v1 v2, keysNodup sol → idsNodup sol →
      shipMultiset (proximity_swap d sol v1 v2) = shipMultiset sol ∧
      idsNodup (proximity_swap d sol v1 v2)) ∧
    (∀ sol source target toMove, keysNodup sol → idsNodup sol →
      shipMultiset (transfer_shipment sol source target toMove) = shipMultiset sol ∧
      idsNodup (transfer_shipment sol source target toMove)) ∧
    (∀ sol v oldPos newPos, keysNodup sol → idsNodup sol →
      shipMultiset (relocate_within_vehicle sol v oldPos newPos) = shipMultiset sol ∧
      idsNodup (relocate_within_vehicle sol v oldPos newPos)) ∧
    (∀ sol v start stop, keysNodup sol → idsNodup sol →
      shipMultiset (reverse_subroute sol v start stop) = shipMultiset sol ∧
      idsNodup (reverse_subroute sol v start stop)) ∧
    (∀ sol, keysNodup sol → idsNodup sol →
      shipMultiset (consolidate_destinations sol) = shipMultiset sol ∧
      idsNodup (consolidate_destinations sol)) :=
  ⟨fun sol v1 v2 s1 s2 hk hids =>
      have h := single_swap_multiset sol v1 v2 s1 s2 hk hids
      ⟨h, idsNodup_of_shipMultiset_eq h hids⟩,
   fun sol v1 v2 dest s1 s2 hk hids =>
      have h := destination_swap_multiset sol v1 v2 dest s1 s2 hk hids
      ⟨h, idsNodup_of_shipMultiset_eq h hids⟩,
   fun d sol v1 v2 hk hids =>
      have h := proximity_swap_multiset d sol v1 v2 hk hids
      ⟨h, idsNodup_of_shipMultiset_eq h hids⟩,
   fun sol source target toMove hk hids =>
      have h := transfer_shipment_multiset sol source target toMove hk hids
      ⟨h, idsNodup_of_shipMultiset_eq h hids⟩,
   fun sol v oldPos newPos hk hids =>
      have h := relocate_within_vehicle_multiset sol v oldPos newPos hk
      ⟨h, idsNodup_of_shipMultiset_eq h hids⟩,
   fun sol v start stop hk hids =>
      have h := reverse_subroute_multiset sol v start stop hk
      ⟨h, idsNodup_of_shipMultiset_eq h hids⟩,
   fun sol hk hids =>
      have h := consolidate_destinations_multiset sol hk hids
      ⟨h, idsNodup_of_shipMultiset_eq h hids⟩⟩

/-- C8 (witness): the `single_swap` part applied to the concrete
two-vehicle solution `solCx`. -/
theorem neighborhood_multiset_invariant_witness :
    shipMultiset (single_swap solCx vCx1 vCx2 sCx1 sCx2) = shipMultiset solCx ∧
    idsNodup (single_swap solCx vCx1 vCx2 sCx1 sCx2) :=
  neighborhood_multiset_invariant.1 solCx vCx1 vCx2 sCx1 sCx2
    (by unfold keysNodup; decide) (by unfold idsNodup; decide)

/-! ## Claim C4: exactness of `optimize_route_exact` on small instances -/

theorem perm_eraseIdx_str :
    ∀ (i : ℕ) (l : List String), i < l.length →
      l.Perm (l.getD i "" :: l.eraseIdx i)
  | _, [], h => by simp at h
  | 0, x :: xs, _ => by simp
  | i + 1, x :: xs, h => by
    simp only [List.getD_cons_succ, List.eraseIdx_cons_succ]
    exact ((perm_eraseIdx_str i xs (by simpa using h)).cons x).trans
      (List.Perm.swap (xs.getD i "") x _)

/-- Every list enumerated by `itertools.permutations(l)` is a permutation
of `l` (soundness of the enumeration). -/
theorem itertoolsPerms_perm :
    ∀ (n : ℕ) (l : List String), l.length ≤ n →
      ∀ p ∈ itertoolsPerms l, p.Perm l := by
  intro n
  induction n with
  | zero =>
    intro l hl p hp
    have hnil : l = [] := List.length_eq_zero.mp (Nat.le_zero.mp hl)
    subst hnil
    rw [itertoolsPerms] at hp
    simp at hp
    subst hp
    exact List.Perm.refl []
  | succ n IH =>
    intro l hl p hp
    cases l with
    | nil =>
      rw [itertoolsPerms] at hp
      simp at hp
      subst hp
      exact List.Perm.refl []
    | cons x xs =>
      rw [itertoolsPerms] at hp
      obtain ⟨i, _, hp⟩ := List.mem_flatMap.mp hp
      obtain ⟨p', hp', rfl⟩ := List.mem_map.mp hp
      have hi : i.1 < (x :: xs).length := List.mem_range.mp i.2
      have hlen : ((x :: xs).eraseIdx i.1).length ≤ n := by
        rw [List.length_eraseIdx_of_lt hi]
        simp only [List.length_cons] at hl ⊢
        omega
      exact ((IH _ hlen p' hp').cons _).trans (perm_eraseIdx_str i.1 (x :: xs) hi).symm

/-- The permutation enumeration is never empty. -/
theorem itertoolsPerms_ne_nil :
    ∀ (n : ℕ) (l : List String), l.length ≤ n → itertoolsPerms l ≠ [] := by
  intro n
  induction n with
  | zero =>
    intro l hl
    have hnil : l = [] := List.length_eq_zero.mp (Nat.le_zero.mp hl)
    subst hnil
    rw [itertoolsPerms]
    simp
  | succ n IH =>
    intro l hl
    cases l with
    | nil =>
      rw [itertoolsPerms]
      simp
    | cons x xs =>
      rw [itertoolsPerms]
      intro hnil
      rw [List.flatMap_eq_nil_iff] at hnil
      have h0 := hnil ⟨0, by simp⟩ (List.mem_attach _ _)
      rw [List.map_eq_nil_iff] at h0
      exact IH xs (by simp only [List.length_cons] at hl; omega) h0

/-- Every permutation of `l` occurs in `itertools.permutations(l)`
(completeness of the enumeration). -/
theorem itertoolsPerms_complete :
    ∀ (n : ℕ) (l q : List String), l.length ≤ n → q.Perm l →
      q ∈ itertoolsPerms l := by
  intro n
  induction n with
  | zero =>
    intro l q hl hq
    have hnil : l = [] := List.length_eq_zero.mp (Nat.le_zero.mp hl)
    subst hnil
    have hq' : q = [] := hq.eq_nil
    subst hq'
    rw [itertoolsPerms]
    simp
  | succ n IH =>
    intro l q hl hq
    cases l with
    | nil =>
      have hq' : q = [] := hq.eq_nil
      subst hq'
      rw [itertoolsPerms]
      simp
    | cons x xs =>
      cases q with
      | nil => exact absurd hq.symm.eq_nil (by simp)
      | cons b q' =>
        have hb : b ∈ x :: xs := hq.mem_iff.mp (List.mem_cons_self _ _)
        obtain ⟨i, hi, hbi⟩ := List.getElem_of_mem hb
        have hgd : (x :: xs).getD i "" = b := by
          rw [List.getD_eq_getElem _ _ hi, hbi]
        have hperm2 : (x :: xs).Perm (b :: (x :: xs).eraseIdx i) := by
          have h := perm_eraseIdx_str i (x :: xs) hi
          rwa [hgd] at h
        have hq' : q'.Perm ((x :: xs).eraseIdx i) := (hq.trans hperm2).cons_inv
        have hlen : ((x :: xs).eraseIdx i).length ≤ n := by
          rw [List.length_eraseIdx_of_lt hi]
          simp only [List.length_cons] at hl ⊢
          omega
        have hmem := IH _ _ hlen hq'
        rw [itertoolsPerms]
        refine List.mem_flatMap.mpr ⟨⟨i, List.mem_range.mpr hi⟩, List.mem_attach _ _, ?_⟩
        refine List.mem_map.mpr ⟨q', hmem, ?_⟩
        show (x :: xs).getD i "" :: q' = b :: q'
        rw [hgd]

/-- A path over stops whose pairwise distances are finite has finite
total distance. -/
theorem pathDist_ne_top (d : String → String → WithTop ℚ) :
    ∀ (m : List String), (∀ x ∈ m, ∀ y ∈ m, d x y ≠ ⊤) → pathDist d m ≠ ⊤
  | [], _ => by
    show (0 : WithTop ℚ) ≠ ⊤
    simp
  | [x], _ => by
    show (0 : WithTop ℚ) ≠ ⊤
    simp
  | x :: y :: rest, h => by
    show d x y + pathDist d (y :: rest) ≠ ⊤
    refine WithTop.add_ne_top.mpr ⟨h x (by simp) y (by simp), ?_⟩
    exact pathDist_ne_top d (y :: rest)
      (fun a ha b hb => h a (List.mem_cons_of_mem _ ha) b (List.mem_cons_of_mem _ hb))

/-- Structural-recursion form of the `best_route` fold (first strict
improvement wins). -/
def selectGo (cost : List String → WithTop ℚ) :
    List String → WithTop ℚ → List (List String) → List String × WithTop ℚ
  | b, cb, [] => (b, cb)
  | b, cb, p :: rest =>
    if cost p < cb then selectGo cost p (cost p) rest else selectGo cost b cb rest

theorem selectFold_eq_selectGo (cost : List String → WithTop ℚ) :
    ∀ (perms : List (List String)) (b : List String) (cb : WithTop ℚ),
      perms.foldl (fun acc p => if cost p < acc.2 then (p, cost p) else acc) (b, cb) =
        selectGo cost b cb perms
  | [], _, _ => rfl
  | p :: rest, b, cb => by
    show List.foldl _ (if cost p < cb then (p, cost p) else (b, cb)) rest = _
    rw [selectGo]
    split_ifs with hc
    · exact selectFold_eq_selectGo cost rest p (cost p)
    · exact selectFold_eq_selectGo cost rest b cb

/-- Characterisation of the strict-improvement fold: either no candidate
beats the running best (and the accumulator is returned unchanged), or the
result is the FIRST candidate attaining the minimum — every earlier
candidate is strictly worse, every later one no better. -/
theorem selectGo_spec (cost : List String → WithTop ℚ) :
    ∀ (perms : List (List String)) (b : List String) (cb : WithTop ℚ),
      (selectGo cost b cb perms = (b, cb) ∧ ∀ p ∈ perms, cb ≤ cost p) ∨
      ∃ pre q post, perms = pre ++ q :: post ∧
        selectGo cost b cb perms = (q, cost q) ∧ cost q < cb ∧
        (∀ s ∈ pre, cost q < cost s) ∧ ∀ s ∈ post, cost q ≤ cost s
  | [], b, cb => Or.inl ⟨rfl, by simp⟩
  | p :: rest, b, cb => by
    rw [selectGo]
    split_ifs with hc
    · rcases selectGo_spec cost rest p (cost p) with ⟨hf, hall⟩ |
        ⟨pre, q, post, hdec, hf, hlt, hpre, hpost⟩
      · exact Or.inr ⟨[], p, rest, rfl, hf, hc, by simp, hall⟩
      · refine Or.inr ⟨p :: pre, q, post, by rw [hdec, List.cons_append], hf,
          hlt.trans hc, ?_, hpost⟩
        intro s hs
        rcases List.mem_cons.mp hs with rfl | hs
        · exact hlt
        · exact hpre s hs
    · rcases selectGo_spec cost rest b cb with ⟨hf, hall⟩ |
        ⟨pre, q, post, hdec, hf, hlt, hpre, hpost⟩
      · refine Or.inl ⟨hf, ?_⟩
        intro s hs
        rcases List.mem_cons.mp hs with rfl | hs
        · exact le_of_not_lt hc
        · exact hall s hs
      · refine Or.inr ⟨p :: pre, q, post, by rw [hdec, List.cons_append], hf, hlt,
          ?_, hpost⟩
        intro s hs
        rcases List.mem_cons.mp hs with rfl | hs
        · exact hlt.trans_le (le_of_not_lt hc)
        · exact hpre s hs

/-- C4: for at most five distinct destinations with finite pairwise
shortest-path distances, `optimize_route_exact` returns a permutation of
the destinations whose total route distance from the origin is minimal
over ALL permutations, and among the enumerated permutations every one
listed before the returned route is strictly worse (the first permutation
attaining the minimum wins). -/
theorem optimize_route_exact_min (d : String → String → WithTop ℚ)
    (origin : String) (destinations : List String)
    (h5 : destinations.length ≤ 5) (hnd : destinations.Nodup)
    (hfin : ∀ x ∈ origin :: destinations, ∀ y ∈ origin :: destinations, d x y ≠ ⊤) :
    (optimize_route_exact d origin destinations).Perm destinations ∧
    (∀ q, q.Perm destinations →
      calculate_route_distance d origin (optimize_route_exact d origin destinations) ≤
        calculate_route_distance d origin q) ∧
    ∃ pre post,
      itertoolsPerms destinations =
        pre ++ optimize_route_exact d origin destinations :: post ∧
      ∀ p ∈ pre,
        calculate_route_distance d origin (optimize_route_exact d origin destinations) <
          calculate_route_distance d origin p := by
  cases destinations with
  | nil =>
    have hopt : optimize_route_exact d origin ([] : List String) = [] := by
      simp [optimize_route_exact]
    have hip : itertoolsPerms ([] : List String) = [[]] := by
      rw [itertoolsPerms]
    refine ⟨?_, ?_, [], [], ?_, ?_⟩
    · rw [hopt]
    · intro q hq
      have hq' : q = [] := hq.eq_nil
      subst hq'
      rw [hopt]
    · simp [hip, hopt]
    · intro p hp
      simp at hp
  | cons a as =>
    have hperm : ∀ p ∈ itertoolsPerms (a :: as), p.Perm (a :: as) :=
      itertoolsPerms_perm (a :: as).length (a :: as) le_rfl
    have hne : itertoolsPerms (a :: as) ≠ [] :=
      itertoolsPerms_ne_nil (a :: as).length (a :: as) le_rfl
    have hcost : ∀ p ∈ itertoolsPerms (a :: as),
        calculate_route_distance d origin p ≠ ⊤ := by
      intro p hp
      rw [calculate_route_distance]
      split_ifs with hE
      · exact WithTop.zero_ne_top
      · refine pathDist_ne_top d (origin :: p) ?_
        intro x hx y hy
        have hmem : ∀ z, z ∈ origin :: p → z ∈ origin :: (a :: as) := by
          intro z hz
          rcases List.mem_cons.mp hz with rfl | hz
          · exact List.mem_cons_self _ _
          · exact List.mem_cons_of_mem _ ((hperm p hp).mem_iff.mp hz)
        exact hfin x (hmem x hx) y (hmem y hy)
    have hopt : optimize_route_exact d origin (a :: as) =
        (selectGo (calculate_route_distance d origin) (a :: as) ⊤
          (itertoolsPerms (a :: as))).1 := by
      rw [optimize_route_exact, if_neg (by simp), if_pos h5, selectBest,
        selectFold_eq_selectGo]
    rcases selectGo_spec (calculate_route_distance d origin)
        (itertoolsPerms (a :: as)) (a :: as) ⊤ with ⟨hf, hall⟩ |
        ⟨pre, q, post, hdec, hf, hlt, hpre, hpost⟩
    · exfalso
      have hp0 : (itertoolsPerms (a :: as)).head hne ∈ itertoolsPerms (a :: as) :=
        List.head_mem hne
      exact hcost _ hp0 (top_le_iff.mp (hall _ hp0))
    · have hq : q ∈ itertoolsPerms (a :: as) := by
        rw [hdec]
        exact List.mem_append_right _ (List.mem_cons_self _ _)
      have hres : optimize_route_exact d origin (a :: as) = q := by
        rw [hopt, hf]
      refine ⟨?_, ?_, pre, post, ?_, ?_⟩
      · rw [hres]
        exact hperm q hq
      · intro p hp
        have hp_mem : p ∈ itertoolsPerms (a :: as) :=
          itertoolsPerms_complete (a :: as).length (a :: as) p le_rfl hp
        rw [hres]
        rw [hdec] at hp_mem
        rcases List.mem_append.mp hp_mem with hp' | hp'
        · exact le_of_lt (hpre p hp')
        · rcases List.mem_cons.mp hp' with rfl | hp'
          · exact le_refl _
          · exact hpost p hp'
      · rw [hres]
        exact hdec
      · intro p hp
        rw [hres]
        exact hpre p hp

/-- Concrete all-finite distance function for the C4 witness. -/
def dC4 : String → String → WithTop ℚ := fun _ _ => ((1 : ℚ) : WithTop ℚ)

/-- C4 (witness): the theorem applied to origin `"O"` and the two distinct
destinations `["A", "B"]`, whose `dC4`-distances are all finite. -/
theorem optimize_route_exact_min_witness :
    ((["A", "B"] : List String).length ≤ 5 ∧ (["A", "B"] : List String).Nodup ∧
      (∀ x ∈ ("O" :: ["A", "B"] : List String),
        ∀ y ∈ ("O" :: ["A", "B"] : List String), dC4 x y ≠ ⊤)) ∧
    ((optimize_route_exact dC4 "O" ["A", "B"]).Perm ["A", "B"] ∧
      (∀ q, q.Perm (["A", "B"] : List String) →
        calculate_route_distance dC4 "O" (optimize_route_exact dC4 "O" ["A", "B"]) ≤
          calculate_route_distance dC4 "O" q) ∧
      ∃ pre post,
        itertoolsPerms ["A", "B"] =
          pre ++ optimize_route_exact dC4 "O" ["A", "B"] :: post ∧
        ∀ p ∈ pre,
          calculate_route_distance dC4 "O" (optimize_route_exact dC4 "O" ["A", "B"]) <
            calculate_route_distance dC4 "O" p) :=
  ⟨⟨by decide, by decide, by decide⟩,
    optimize_route_exact_min dC4 "O" ["A", "B"] (by decide) (by decide) (by decide)⟩

/-! ## Claim C9: termination and full local optimality of 2-opt -/

theorem pathDist_nil (d : String → String → WithTop ℚ) : pathDist d [] = 0 := rfl

theorem pathDist_single (d : String → String → WithTop ℚ) (x : String) :
    pathDist d [x] = 0 := rfl

theorem pathDist_cons_cons (d : String → String → WithTop ℚ) (x y : String)
    (rest : List String) :
    pathDist d (x :: y :: rest) = d x y + pathDist d (y :: rest) := rfl

/-- Splitting a path distance at an interior edge: the path
`X ++ [x]` followed by `y :: Y` costs the two sub-paths plus the edge
`x → y`. -/
theorem pathDist_append (d : String → String → WithTop ℚ) :
    ∀ (X : List String) (x y : String) (Y : List String),
      pathDist d ((X ++ [x]) ++ y :: Y) =
        pathDist d (X ++ [x]) + d x y + pathDist d (y :: Y)
  | [], x, y, Y => by
    simp [pathDist_cons_cons, pathDist_single]
  | [a], x, y, Y => by
    simp [pathDist_cons_cons, pathDist_single, add_assoc]
  | a :: b :: X, x, y, Y => by
    have IH := pathDist_append d (b :: X) x y Y
    simp only [List.cons_append] at IH ⊢
    rw [pathDist_cons_cons, pathDist_cons_cons, IH]
    abel

/-- Reversing a path does not change its distance when the distance
function is symmetric on its stops. -/
theorem pathDist_reverse (d : String → String → WithTop ℚ) :
    ∀ (S : List String), (∀ x ∈ S, ∀ y ∈ S, d x y = d y x) →
      pathDist d S.reverse = pathDist d S
  | [], _ => rfl
  | [x], _ => rfl
  | x :: y :: rest, hs => by
    rw [List.reverse_cons, List.reverse_cons, pathDist_append d rest.reverse y x []]
    rw [← List.reverse_cons,
      pathDist_reverse d (y :: rest)
        (fun a ha b hb => hs a (List.mem_cons_of_mem _ ha) b (List.mem_cons_of_mem _ hb)),
      pathDist_cons_cons, pathDist_single, hs y (by simp) x (by simp)]
    abel

/-- Reversing the slice `r[i:j]` permutes the route. -/
theorem revSegment_perm (r : List String) (i j : ℕ) (hij : i ≤ j) :
    (revSegment r i j).Perm r := by
  have hseg : (r.drop i).take (j - i) ++ r.drop j = r.drop i := by
    conv_rhs => rw [← List.take_append_drop (j - i) (r.drop i)]
    congr 1
    rw [List.drop_drop]
    congr 1
    omega
  have hr : r.take i ++ ((r.drop i).take (j - i) ++ r.drop j) = r := by
    rw [hseg, List.take_append_drop]
  rw [revSegment, List.append_assoc]
  conv_rhs => rw [← hr]
  exact List.Perm.append_left _ (List.Perm.append_right _ (List.reverse_perm _))

/-- On routes shorter than 3 stops the nested scan finds no candidate
pair and returns its argument with the flag unchanged. -/
theorem twoOptPassAux_short (d : String → String → WithTop ℚ) (origin : String) :
    ∀ (r : List String) (i k : ℕ) (imp : Bool), r.length < 3 →
      twoOptPassAux d origin r i k imp = (r, imp)
  | r, i, k, imp, h => by
    rw [twoOptPassAux]
    split_ifs with h1 h2 hc
    · exact absurd h2 (by omega)
    · exact absurd h2 (by omega)
    · exact twoOptPassAux_short d origin r (i + 1) 0 imp h
    · rfl
termination_by r i k imp h => (r.length - i, r.length - (i + 2 + k))
decreasing_by
  exact Prod.Lex.left _ _ (by omega)

theorem take_cons_pos {α : Type} (a : α) (l : List α) (n : ℕ) (h : 0 < n) :
    (a :: l).take n = a :: l.take (n - 1) := by
  obtain ⟨m, rfl⟩ : ∃ m, n = m + 1 := ⟨n - 1, by omega⟩
  simp

theorem take_succ_getD (l : List String) (n : ℕ) (h : n < l.length) :
    l.take (n + 1) = l.take n ++ [l.getD n ""] := by
  rw [List.take_succ, List.getElem?_eq_getElem h, List.getD_eq_getElem l "" h]
  rfl

theorem getD_drop_str (r : List String) (i n : ℕ) (h : i + n < r.length) :
    (r.drop i).getD n "" = r.getD (i + n) "" := by
  rw [List.getD_eq_getElem (r.drop i) "" (by rw [List.length_drop]; omega),
    List.getD_eq_getElem r "" h, List.getElem_drop]

/-- Concatenation of three path pieces `A ++ [a]`, `sH :: S ++ [sL]`,
`b :: B`: the total distance is the three piece distances plus the two
junction edges `a → sH` and `sL → b`. -/
theorem pathDist_three (d : String → String → WithTop ℚ) (A : List String) (a : String)
    (S : List String) (sH sL b : String) (B : List String) :
    pathDist d ((A ++ [a]) ++ ((sH :: (S ++ [sL])) ++ (b :: B))) =
      (pathDist d (A ++ [a]) + pathDist d (sH :: (S ++ [sL])) + pathDist d (b :: B)) +
        (d a sH + d sL b) := by
  have h1 : (sH :: (S ++ [sL])) ++ (b :: B) = sH :: ((S ++ [sL]) ++ b :: B) := by
    simp
  rw [h1, pathDist_append d A a sH ((S ++ [sL]) ++ b :: B)]
  have h2 : sH :: ((S ++ [sL]) ++ b :: B) = ((sH :: S) ++ [sL]) ++ b :: B := by
    simp
  rw [h2, pathDist_append d (sH :: S) sL b B]
  have h3 : (sH :: S) ++ [sL] = sH :: (S ++ [sL]) := by
    simp
  rw [h3]
  abel

/-- Decomposition of the route distance before and after reversing the
slice `r[i:j]` (with `i + 2 ≤ j < len`): both totals share a common part
`C` and differ exactly in the two edges compared by the 2-opt test; `C`
is finite whenever all pairwise distances are. -/
theorem dist_revSegment_decomp (d : String → String → WithTop ℚ) (origin : String)
    (r : List String) (i j : ℕ) (hij : i + 2 ≤ j) (hj : j < r.length)
    (hsym : ∀ x ∈ origin :: r, ∀ y ∈ origin :: r, d x y = d y x) :
    ∃ C : WithTop ℚ,
      calculate_route_distance d origin r =
        C + (d (if i = 0 then origin else r.getD (i - 1) "") (r.getD i "") +
          d (r.getD (j - 1) "") (r.getD j "")) ∧
      calculate_route_distance d origin (revSegment r i j) =
        C + (d (if i = 0 then origin else r.getD (i - 1) "") (r.getD (j - 1) "") +
          d (r.getD i "") (r.getD j "")) ∧
      ((∀ x ∈ origin :: r, ∀ y ∈ origin :: r, d x y ≠ ⊤) → C ≠ ⊤) := by
  have hrne : r ≠ [] := by
    intro hE
    rw [hE] at hj
    simp at hj
  obtain ⟨A, hA⟩ : ∃ A, origin :: r.take i =
      A ++ [if i = 0 then origin else r.getD (i - 1) ""] := by
    rcases Nat.eq_zero_or_pos i with rfl | hip
    · exact ⟨[], by simp⟩
    · refine ⟨origin :: r.take (i - 1), ?_⟩
      rw [if_neg (by omega)]
      have htk : r.take i = r.take (i - 1) ++ [r.getD (i - 1) ""] := by
        conv_lhs => rw [show i = (i - 1) + 1 by omega]
        rw [take_succ_getD r (i - 1) (by omega)]
      rw [htk, List.cons_append]
  have hdropi : r.drop i = r.getD i "" :: r.drop (i + 1) := by
    rw [List.drop_eq_getElem_cons (show i < r.length by omega),
      List.getD_eq_getElem r "" (show i < r.length by omega)]
  have hseg : (r.drop i).take (j - i) =
      r.getD i "" :: ((r.drop (i + 1)).take (j - i - 2) ++ [r.getD (j - 1) ""]) := by
    rw [hdropi, take_cons_pos (r.getD i "") (r.drop (i + 1)) (j - i) (by omega)]
    rw [show j - i - 1 = (j - i - 2) + 1 by omega]
    rw [take_succ_getD (r.drop (i + 1)) (j - i - 2) (by rw [List.length_drop]; omega)]
    rw [getD_drop_str r (i + 1) (j - i - 2) (by omega)]
    rw [show i + 1 + (j - i - 2) = j - 1 by omega]
  have hB : r.drop j = r.getD j "" :: r.drop (j + 1) := by
    rw [List.drop_eq_getElem_cons hj, List.getD_eq_getElem r "" hj]
  have hsplit : r = r.take i ++ ((r.drop i).take (j - i) ++ r.drop j) := by
    conv_lhs => rw [← List.take_append_drop i r]
    congr 1
    conv_lhs => rw [← List.take_append_drop (j - i) (r.drop i)]
    congr 1
    rw [List.drop_drop]
    congr 1
    omega
  have hfull : origin :: r =
      (A ++ [if i = 0 then origin else r.getD (i - 1) ""]) ++
        ((r.getD i "" :: ((r.drop (i + 1)).take (j - i - 2) ++ [r.getD (j - 1) ""])) ++
          (r.getD j "" :: r.drop (j + 1))) := by
    conv_lhs => rw [hsplit]
    rw [← hA, ← hseg, ← hB, List.cons_append]
  have hsegrev : (r.getD i "" :: ((r.drop (i + 1)).take (j - i - 2) ++
      [r.getD (j - 1) ""])).reverse =
      r.getD (j - 1) "" :: (((r.drop (i + 1)).take (j - i - 2)).reverse ++
        [r.getD i ""]) := by
    simp
  have hrevfull : origin :: revSegment r i j =
      (A ++ [if i = 0 then origin else r.getD (i - 1) ""]) ++
        ((r.getD (j - 1) "" :: (((r.drop (i + 1)).take (j - i - 2)).reverse ++
          [r.getD i ""])) ++ (r.getD j "" :: r.drop (j + 1))) := by
    rw [revSegment, hseg, hsegrev, hB, ← hA]
    simp [List.append_assoc]
  have hd1 : calculate_route_distance d origin r = pathDist d (origin :: r) := by
    rw [calculate_route_distance, if_neg (by simp only [List.isEmpty_iff]; exact hrne)]
  have hd2 : calculate_route_distance d origin (revSegment r i j) =
      pathDist d (origin :: revSegment r i j) := by
    have hlen : (revSegment r i j).length = r.length :=
      revSegment_length (by omega) (by omega)
    have hne2 : revSegment r i j ≠ [] := by
      intro hE
      rw [hE] at hlen
      simp at hlen
      omega
    rw [calculate_route_distance, if_neg (by simp only [List.isEmpty_iff]; exact hne2)]
  have hsegsub : ∀ z ∈ r.getD i "" :: ((r.drop (i + 1)).take (j - i - 2) ++
      [r.getD (j - 1) ""]), z ∈ origin :: r := by
    intro z hz
    rw [← hseg] at hz
    exact List.mem_cons_of_mem _ (List.mem_of_mem_drop (List.mem_of_mem_take hz))
  have hrevdist : pathDist d (r.getD (j - 1) "" ::
      (((r.drop (i + 1)).take (j - i - 2)).reverse ++ [r.getD i ""])) =
      pathDist d (r.getD i "" :: ((r.drop (i + 1)).take (j - i - 2) ++
        [r.getD (j - 1) ""])) := by
    rw [← hsegrev]
    exact pathDist_reverse d _ (fun x hx y hy => hsym x (hsegsub x hx) y (hsegsub y hy))
  refine ⟨pathDist d (A ++ [if i = 0 then origin else r.getD (i - 1) ""]) +
    pathDist d (r.getD i "" :: ((r.drop (i + 1)).take (j - i - 2) ++
      [r.getD (j - 1) ""])) +
    pathDist d (r.getD j "" :: r.drop (j + 1)), ?_, ?_, ?_⟩
  · rw [hd1, hfull, pathDist_three]
  · rw [hd2, hrevfull, pathDist_three, hrevdist]
  · intro hf
    refine WithTop.add_ne_top.mpr ⟨WithTop.add_ne_top.mpr ⟨?_, ?_⟩, ?_⟩
    · refine pathDist_ne_top d _ ?_
      have hsub : ∀ z ∈ A ++ [if i = 0 then origin else r.getD (i - 1) ""],
          z ∈ origin :: r := by
        intro z hz
        rw [← hA] at hz
        rcases List.mem_cons.mp hz with rfl | hz'
        · exact List.mem_cons_self _ _
        · exact List.mem_cons_of_mem _ (List.mem_of_mem_take hz')
      exact fun x hx y hy => hf x (hsub x hx) y (hsub y hy)
    · exact pathDist_ne_top d _
        (fun x hx y hy => hf x (hsegsub x hx) y (hsegsub y hy))
    · refine pathDist_ne_top d _ ?_
      have hsub : ∀ z ∈ r.getD j "" :: r.drop (j + 1), z ∈ origin :: r := by
        intro z hz
        rw [← hB] at hz
        exact List.mem_cons_of_mem _ (List.mem_of_mem_drop hz)
      exact fun x hx y hy => hf x (hsub x hx) y (hsub y hy)

/-- An improving 2-opt test strictly lowers the total route distance
(symmetric finite distances). -/
theorem twoOptCond_lowers (d : String → String → WithTop ℚ) (origin : String)
    (r : List String) (i j : ℕ) (hij : i + 2 ≤ j) (hj : j < r.length)
    (hsym : ∀ x ∈ origin :: r, ∀ y ∈ origin :: r, d x y = d y x)
    (hfin : ∀ x ∈ origin :: r, ∀ y ∈ origin :: r, d x y ≠ ⊤)
    (hc : twoOptCond d origin r i j) :
    calculate_route_distance d origin (revSegment r i j) <
      calculate_route_distance d origin r := by
  obtain ⟨C, h1, h2, hC⟩ := dist_revSegment_decomp d origin r i j hij hj hsym
  rw [h1, h2]
  simp only [twoOptCond] at hc
  exact WithTop.add_lt_add_left (hC hfin) hc

/-- A failing 2-opt test means the reversal does not lower the total
route distance (symmetric distances). -/
theorem not_twoOptCond_ge (d : String → String → WithTop ℚ) (origin : String)
    (r : List String) (i j : ℕ) (hij : i + 2 ≤ j) (hj : j < r.length)
    (hsym : ∀ x ∈ origin :: r, ∀ y ∈ origin :: r, d x y = d y x)
    (hnc : ¬ twoOptCond d origin r i j) :
    calculate_route_distance d origin r ≤
      calculate_route_distance d origin (revSegment r i j) := by
  obtain ⟨C, h1, h2, _⟩ := dist_revSegment_decomp d origin r i j hij hj hsym
  rw [h1, h2]
  simp only [twoOptCond] at hnc
  exact add_le_add_left (not_lt.mp hnc) C

/-- If the scan finishes with the flag down, the route was never changed,
the flag was down all along, and no pair at or after the scan position
passes the 2-opt test. -/
theorem twoOptPassAux_false (d : String → String → WithTop ℚ) (origin : String) :
    ∀ (r : List String) (i k : ℕ) (imp : Bool) (r' : List String),
      twoOptPassAux d origin r i k imp = (r', false) →
      r' = r ∧ imp = false ∧
      ∀ i' k', ((i' = i ∧ k ≤ k') ∨ i < i') → i' + 1 < r.length →
        i' + 2 + k' < r.length → ¬ twoOptCond d origin r i' (i' + 2 + k')
  | r, i, k, imp, r', h => by
    rw [twoOptPassAux] at h
    split_ifs at h with h1 h2 hc
    · obtain ⟨_, himp, _⟩ := twoOptPassAux_false d origin _ _ _ _ _ h
      exact absurd himp (by simp)
    · obtain ⟨hr, himp, hall⟩ := twoOptPassAux_false d origin _ _ _ _ _ h
      refine ⟨hr, himp, ?_⟩
      intro i' k' hsc hi' hj'
      rcases hsc with ⟨rfl, hk⟩ | hlt
      · rcases eq_or_lt_of_le hk with rfl | hk2
        · exact hc
        · exact hall i' k' (Or.inl ⟨rfl, hk2⟩) hi' hj'
      · exact hall i' k' (Or.inr hlt) hi' hj'
    · obtain ⟨hr, himp, hall⟩ := twoOptPassAux_false d origin _ _ _ _ _ h
      refine ⟨hr, himp, ?_⟩
      intro i' k' hsc hi' hj'
      rcases hsc with ⟨rfl, hk⟩ | hlt
      · exact absurd hj' (by omega)
      · refine hall i' k' ?_ hi' hj'
        rcases eq_or_lt_of_le (Nat.succ_le_of_lt hlt) with heq | hlt2
        · exact Or.inl ⟨heq.symm, Nat.zero_le _⟩
        · exact Or.inr hlt2
    · simp only [Prod.mk.injEq] at h
      obtain ⟨hr, himp⟩ := h
      refine ⟨hr.symm, himp, ?_⟩
      intro i' k' hsc hi' hj'
      exfalso
      rcases hsc with ⟨rfl, _⟩ | hlt
      · exact h1 hi'
      · exact h1 (by omega)
termination_by r i k imp r' h => (r.length - i, r.length - (i + 2 + k))
decreasing_by
  · have hlen : (revSegment r i (i + 2 + k)).length = r.length :=
      revSegment_length (by omega) (by omega)
    rw [hlen]
    exact Prod.Lex.right _ (by omega)
  · exact Prod.Lex.right _ (by omega)
  · exact Prod.Lex.left _ _ (by omega)

/-- If a full pass reports no improvement, the route is unchanged and no
considered pair (`i + 2 ≤ j < len`, `i + 1 < len`) passes the 2-opt
test. -/
theorem twoOptPass_false (d : String → String → WithTop ℚ) (origin : String)
    (r r' : List String) (h : twoOptPass d origin r = (r', false)) :
    r' = r ∧ ∀ i j, i + 1 < r.length → i + 2 ≤ j → j < r.length →
      ¬ twoOptCond d origin r i j := by
  obtain ⟨hr, _, hall⟩ := twoOptPassAux_false d origin r 0 0 false r' h
  refine ⟨hr, ?_⟩
  intro i j hi hij hj
  have hj' : j = i + 2 + (j - i - 2) := by omega
  rw [hj']
  refine hall i (j - i - 2) ?_ hi (by omega)
  rcases Nat.eq_zero_or_pos i with rfl | hpos
  · exact Or.inl ⟨rfl, Nat.zero_le _⟩
  · exact Or.inr hpos

/-- The scan only permutes the route. -/
theorem twoOptPassAux_perm (d : String → String → WithTop ℚ) (origin : String) :
    ∀ (r : List String) (i k : ℕ) (imp : Bool),
      (twoOptPassAux d origin r i k imp).1.Perm r
  | r, i, k, imp => by
    rw [twoOptPassAux]
    split_ifs with h1 h2 hc
    · exact (twoOptPassAux_perm d origin _ i (k + 1) true).trans
        (revSegment_perm r i (i + 2 + k) (by omega))
    · exact twoOptPassAux_perm d origin r i (k + 1) imp
    · exact twoOptPassAux_perm d origin r (i + 1) 0 imp
    · exact List.Perm.refl r
termination_by r i k imp => (r.length - i, r.length - (i + 2 + k))
decreasing_by
  · have hlen : (revSegment r i (i + 2 + k)).length = r.length :=
      revSegment_length (by omega) (by omega)
    rw [hlen]
    exact Prod.Lex.right _ (by omega)
  · exact Prod.Lex.right _ (by omega)
  · exact Prod.Lex.left _ _ (by omega)

/-- Either the scan returns its arguments unchanged, or it strictly
lowers the total route distance (symmetric finite distances). -/
theorem twoOptPassAux_dist (d : String → String → WithTop ℚ) (origin : String) :
    ∀ (r : List String) (i k : ℕ) (imp : Bool),
      (∀ x ∈ origin :: r, ∀ y ∈ origin :: r, d x y = d y x) →
      (∀ x ∈ origin :: r, ∀ y ∈ origin :: r, d x y ≠ ⊤) →
      twoOptPassAux d origin r i k imp = (r, imp) ∨
        calculate_route_distance d origin (twoOptPassAux d origin r i k imp).1 <
          calculate_route_distance d origin r
  | r, i, k, imp, hs, hf => by
    rw [twoOptPassAux]
    split_ifs with h1 h2 hc
    · right
      have hrevlt := twoOptCond_lowers d origin r i (i + 2 + k) (by omega) h2 hs hf hc
      have hmem : ∀ z, z ∈ origin :: revSegment r i (i + 2 + k) ↔ z ∈ origin :: r := by
        intro z
        simp only [List.mem_cons]
        exact or_congr Iff.rfl (revSegment_perm r i (i + 2 + k) (by omega)).mem_iff
      have hs' : ∀ x ∈ origin :: revSegment r i (i + 2 + k),
          ∀ y ∈ origin :: revSegment r i (i + 2 + k), d x y = d y x :=
        fun x hx y hy => hs x ((hmem x).mp hx) y ((hmem y).mp hy)
      have hf' : ∀ x ∈ origin :: revSegment r i (i + 2 + k),
          ∀ y ∈ origin :: revSegment r i (i + 2 + k), d x y ≠ ⊤ :=
        fun x hx y hy => hf x ((hmem x).mp hx) y ((hmem y).mp hy)
      rcases twoOptPassAux_dist d origin (revSegment r i (i + 2 + k)) i (k + 1)
          true hs' hf' with heq | hlt
      · rw [heq]
        exact hrevlt
      · exact hlt.trans hrevlt
    · exact twoOptPassAux_dist d origin r i (k + 1) imp hs hf
    · exact twoOptPassAux_dist d origin r (i + 1) 0 imp hs hf
    · left
      rfl
termination_by r i k imp hs hf => (r.length - i, r.length - (i + 2 + k))
decreasing_by
  · have hlen : (revSegment r i (i + 2 + k)).length = r.length :=
      revSegment_length (by omega) (by omega)
    rw [hlen]
    exact Prod.Lex.right _ (by omega)
  · exact Prod.Lex.right _ (by omega)
  · exact Prod.Lex.left _ _ (by omega)

/-- Number of permutations of `route` with total distance strictly below
that of `r`: the strictly decreasing measure of the `while improved`
loop. -/
def distRank (d : String → String → WithTop ℚ) (origin : String)
    (route r : List String) : ℕ :=
  (List.permutations route).countP
    (fun p => decide (calculate_route_distance d origin p <
      calculate_route_distance d origin r))

theorem distRank_lt (d : String → String → WithTop ℚ) (origin : String)
    (route : List String) {r r' : List String} (hr' : r'.Perm route)
    (hlt : calculate_route_distance d origin r' < calculate_route_distance d origin r) :
    distRank d origin route r' < distRank d origin route r := by
  have hmem : r' ∈ List.permutations route := List.mem_permutations.mpr hr'
  obtain ⟨l1, l2, hsplit⟩ := List.append_of_mem hmem
  have hmono : ∀ (l : List (List String)),
      l.countP (fun p => decide (calculate_route_distance d origin p <
        calculate_route_distance d origin r')) ≤
      l.countP (fun p => decide (calculate_route_distance d origin p <
        calculate_route_distance d origin r)) := by
    intro l
    refine List.countP_mono_left ?_
    intro a _ ha
    simp only [decide_eq_true_eq] at ha ⊢
    exact ha.trans hlt
  have h1 := hmono l1
  have h2 := hmono l2
  unfold distRank
  rw [hsplit, List.countP_append, List.countP_append, List.countP_cons,
    List.countP_cons]
  simp only [decide_eq_true_eq, lt_self_iff_false, if_false, hlt, if_true]
  omega

/-- With fuel exceeding the rank of the start route, the loop reaches a
route on which a full pass reports no improvement, and adding more fuel
does not change the result (the `while improved` loop terminates). -/
theorem twoOptLoop_spec (d : String → String → WithTop ℚ) (origin : String)
    (route : List String)
    (hs : ∀ x ∈ origin :: route, ∀ y ∈ origin :: route, d x y = d y x)
    (hf : ∀ x ∈ origin :: route, ∀ y ∈ origin :: route, d x y ≠ ⊤) :
    ∀ (n : ℕ) (r : List String), r.Perm route → distRank d origin route r < n →
      (twoOptLoop d origin n r).Perm route ∧
      twoOptPass d origin (twoOptLoop d origin n r) = (twoOptLoop d origin n r, false) ∧
      ∀ m, n ≤ m → twoOptLoop d origin m r = twoOptLoop d origin n r := by
  intro n
  induction n with
  | zero =>
    intro r _ h
    exact absurd h (Nat.not_lt_zero _)
  | succ n IH =>
    intro r hperm hrank
    have hmem : ∀ z, z ∈ origin :: r ↔ z ∈ origin :: route := by
      intro z
      simp only [List.mem_cons]
      exact or_congr Iff.rfl hperm.mem_iff
    have hs' : ∀ x ∈ origin :: r, ∀ y ∈ origin :: r, d x y = d y x :=
      fun x hx y hy => hs x ((hmem x).mp hx) y ((hmem y).mp hy)
    have hf' : ∀ x ∈ origin :: r, ∀ y ∈ origin :: r, d x y ≠ ⊤ :=
      fun x hx y hy => hf x ((hmem x).mp hx) y ((hmem y).mp hy)
    rcases hpass : twoOptPass d origin r with ⟨r1, flag⟩
    cases flag with
    | false =>
      obtain ⟨hr1, _⟩ := twoOptPass_false d origin r r1 hpass
      subst hr1
      have hL : twoOptLoop d origin (n + 1) r1 = r1 := by
        simp [twoOptLoop, hpass]
      refine ⟨by rw [hL]; exact hperm, by rw [hL]; exact hpass, ?_⟩
      intro m hm
      obtain ⟨m', rfl⟩ : ∃ m', m = m' + 1 := ⟨m - 1, by omega⟩
      rw [hL]
      simp [twoOptLoop, hpass]
    | true =>
      have hlt : calculate_route_distance d origin r1 <
          calculate_route_distance d origin r := by
        rcases twoOptPassAux_dist d origin r 0 0 false hs' hf' with heq | hlt
        · rw [show twoOptPassAux d origin r 0 0 false = twoOptPass d origin r
            from rfl, hpass] at heq
          exact absurd heq (by simp)
        · rw [show twoOptPassAux d origin r 0 0 false = twoOptPass d origin r
            from rfl, hpass] at hlt
          exact hlt
      have hperm1 : r1.Perm route := by
        have hp := twoOptPassAux_perm d origin r 0 0 false
        rw [show twoOptPassAux d origin r 0 0 false = twoOptPass d origin r
          from rfl, hpass] at hp
        exact hp.trans hperm
      have hrank1 : distRank d origin route r1 < n := by
        have := distRank_lt d origin route hperm1 hlt
        omega
      obtain ⟨hp1, hp2, hp3⟩ := IH r1 hperm1 hrank1
      have hL : twoOptLoop d origin (n + 1) r = twoOptLoop d origin n r1 := by
        simp [twoOptLoop, hpass]
      refine ⟨by rw [hL]; exact hp1, by rw [hL]; exact hp2, ?_⟩
      intro m hm
      obtain ⟨m', rfl⟩ : ∃ m', m = m' + 1 := ⟨m - 1, by omega⟩
      have hLm : twoOptLoop d origin (m' + 1) r = twoOptLoop d origin m' r1 := by
        simp [twoOptLoop, hpass]
      rw [hLm, hL, hp3 m' (by omega)]

/-- C9: for a route whose pairwise shortest-path distances (with the
origin) are finite and symmetric, the `while improved` loop of
`two_opt_improvement` terminates — the embedded fuel `two_opt_fuel` is
enough, and any larger fuel gives the same result — and the returned
route is a permutation of the input on which a full pass reports no
improvement: no segment reversal considered by the edge-replacement test
(`i + 1 < len`, `i + 2 ≤ j < len`) lowers the total route distance. -/
theorem two_opt_improvement_locally_optimal (d : String → String → WithTop ℚ)
    (origin : String) (route : List String)
    (hsym : ∀ x ∈ origin :: route, ∀ y ∈ origin :: route, d x y = d y x)
    (hfin : ∀ x ∈ origin :: route, ∀ y ∈ origin :: route, d x y ≠ ⊤) :
    (two_opt_improvement d origin route).Perm route ∧
    (∀ fuel, two_opt_fuel route ≤ fuel →
      twoOptLoop d origin fuel route = twoOptLoop d origin (two_opt_fuel route) route) ∧
    twoOptPass d origin (two_opt_improvement d origin route) =
      (two_opt_improvement d origin route, false) ∧
    ∀ i j, i + 1 < (two_opt_improvement d origin route).length → i + 2 ≤ j →
      j < (two_opt_improvement d origin route).length →
      calculate_route_distance d origin (two_opt_improvement d origin route) ≤
        calculate_route_distance d origin
          (revSegment (two_opt_improvement d origin route) i j) := by
  have hrank : distRank d origin route route < two_opt_fuel route :=
    Nat.lt_succ_of_le (List.countP_le_length _)
  obtain ⟨hp1, hp2, hp3⟩ := twoOptLoop_spec d origin route hsym hfin
    (two_opt_fuel route) route (List.Perm.refl _) hrank
  have hkey : (two_opt_improvement d origin route).Perm route ∧
      twoOptPass d origin (two_opt_improvement d origin route) =
        (two_opt_improvement d origin route, false) := by
    by_cases hlen : route.length < 3
    · have himp : two_opt_improvement d origin route = route := by
        simp [two_opt_improvement, hlen]
      rw [himp]
      exact ⟨List.Perm.refl _, twoOptPassAux_short d origin route 0 0 false hlen⟩
    · have himp : two_opt_improvement d origin route =
          twoOptLoop d origin (two_opt_fuel route) route := by
        simp [two_opt_improvement, hlen]
      rw [himp]
      exact ⟨hp1, hp2⟩
  refine ⟨hkey.1, hp3, hkey.2, ?_⟩
  intro i j hi hij hj
  obtain ⟨_, hall⟩ := twoOptPass_false d origin _ _ hkey.2
  have hmem : ∀ z, z ∈ origin :: two_opt_improvement d origin route ↔
      z ∈ origin :: route := by
    intro z
    simp only [List.mem_cons]
    exact or_congr Iff.rfl hkey.1.mem_iff
  refine not_twoOptCond_ge d origin _ i j hij hj ?_ (hall i j hi hij hj)
  exact fun x hx y hy => hsym x ((hmem x).mp hx) y ((hmem y).mp hy)

/-- Concrete symmetric all-finite distance function for the C9
witness. -/
def dC9 : String → String → WithTop ℚ := fun _ _ => ((1 : ℚ) : WithTop ℚ)

/-- C9 (witness): the theorem applied to origin `"O"` and the
three-stop route `["A", "B", "C"]` under `dC9`. -/
theorem two_opt_improvement_locally_optimal_witness :
    ((∀ x ∈ ("O" :: ["A", "B", "C"] : List String),
        ∀ y ∈ ("O" :: ["A", "B", "C"] : List String), dC9 x y = dC9 y x) ∧
      (∀ x ∈ ("O" :: ["A", "B", "C"] : List String),
        ∀ y ∈ ("O" :: ["A", "B", "C"] : List String), dC9 x y ≠ ⊤)) ∧
    ((two_opt_improvement dC9 "O" ["A", "B", "C"]).Perm ["A", "B", "C"] ∧
      (∀ fuel, two_opt_fuel ["A", "B", "C"] ≤ fuel →
        twoOptLoop dC9 "O" fuel ["A", "B", "C"] =
          twoOptLoop dC9 "O" (two_opt_fuel ["A", "B", "C"]) ["A", "B", "C"]) ∧
      twoOptPass dC9 "O" (two_opt_improvement dC9 "O" ["A", "B", "C"]) =
        (two_opt_improvement dC9 "O" ["A", "B", "C"], false) ∧
      ∀ i j, i + 1 < (two_opt_improvement dC9 "O" ["A", "B", "C"]).length →
        i + 2 ≤ j →
        j < (two_opt_improvement dC9 "O" ["A", "B", "C"]).length →
        calculate_route_distance dC9 "O" (two_opt_improvement dC9 "O" ["A", "B", "C"]) ≤
          calculate_route_distance dC9 "O"
            (revSegment (two_opt_improvement dC9 "O" ["A", "B", "C"]) i j)) :=
  ⟨⟨by decide, by decide⟩,
    two_opt_improvement_locally_optimal dC9 "O" ["A", "B", "C"]
      (by decide) (by decide)⟩

end CVRP
